import Mathlib

/-!
# serverless-aws-documentation: Reference Resolver, Model Extractor, Dialect Normalizer,
Template Synthesizer

A shallow embedding of `src/openapi.js` and of the methods `beforeDeploy` and
`checkCFTemplate` of `src/index.js`.

Conventions of the embedding.

* A JavaScript value that the program reads from the parsed configuration is a
  `JVal`: a tree of plain data (what a YAML or JSON parser produces plus
  `undefined`).  The entry list of an object is its own enumerable properties in
  `Object.keys` order; numbers are integers.
* Trees are values: two different positions never share one mutable node.  A
  function that mutates its argument in place returns the mutated tree, and the
  caller writes it back where the argument came from.
* A JavaScript computation that may throw is an `Option`; `none` stands for a
  thrown `TypeError` (a property read on `undefined` or `null`, a call of a
  method the receiver does not have).
* Objects are plain records: property reads see own properties only (and
  `length` of arrays and strings), and an object converts to the string
  `[object Object]`.  Members inherited from a prototype, and own entries that
  shadow them, are outside the model.
* An HTTP event of a declared function is in object form, with a string `path`
  and a string `method`.
-/

namespace AwsDoc

/-- Plain JavaScript data. -/
inductive JVal where
  | undef : JVal
  | null : JVal
  | bool (b : Bool) : JVal
  | num (n : Int) : JVal
  | str (s : String) : JVal
  | arr (xs : List JVal) : JVal
  | obj (kvs : List (String × JVal)) : JVal

namespace JVal

mutual
/-- Structural equality test on values. -/
def beq : JVal → JVal → Bool
  | .undef, .undef => true
  | .null, .null => true
  | .bool a, .bool b => decide (a = b)
  | .num a, .num b => decide (a = b)
  | .str a, .str b => decide (a = b)
  | .arr xs, .arr ys => beqElems xs ys
  | .obj xs, .obj ys => beqEntries xs ys
  | _, _ => false
/-- Structural equality test on element lists. -/
def beqElems : List JVal → List JVal → Bool
  | [], [] => true
  | x :: xs, y :: ys => beq x y && beqElems xs ys
  | _, _ => false
/-- Structural equality test on entry lists. -/
def beqEntries : List (String × JVal) → List (String × JVal) → Bool
  | [], [] => true
  | (k, x) :: xs, (l, y) :: ys => decide (k = l) && (beq x y && beqEntries xs ys)
  | _, _ => false
end

mutual
theorem beq_refl : ∀ a : JVal, beq a a = true
  | .undef => by simp [beq]
  | .null => by simp [beq]
  | .bool _ => by simp [beq]
  | .num _ => by simp [beq]
  | .str _ => by simp [beq]
  | .arr xs => by simpa [beq] using beqElems_refl xs
  | .obj xs => by simpa [beq] using beqEntries_refl xs
theorem beqElems_refl : ∀ xs : List JVal, beqElems xs xs = true
  | [] => by simp [beqElems]
  | x :: xs => by simp [beqElems, beq_refl x, beqElems_refl xs]
theorem beqEntries_refl : ∀ xs : List (String × JVal), beqEntries xs xs = true
  | [] => by simp [beqEntries]
  | (_, x) :: xs => by simp [beqEntries, beq_refl x, beqEntries_refl xs]
end

mutual
theorem eq_of_beq : ∀ a b : JVal, beq a b = true → a = b
  | .undef, b => by cases b <;> simp [beq]
  | .null, b => by cases b <;> simp [beq]
  | .bool _, b => by cases b <;> simp [beq]
  | .num _, b => by cases b <;> simp [beq]
  | .str _, b => by cases b <;> simp [beq]
  | .arr xs, b => by
    cases b <;> simp [beq]
    exact eq_of_beqElems xs _
  | .obj xs, b => by
    cases b <;> simp [beq]
    exact eq_of_beqEntries xs _
theorem eq_of_beqElems : ∀ xs ys : List JVal, beqElems xs ys = true → xs = ys
  | [], ys => by cases ys <;> simp [beqElems]
  | x :: xs, ys => by
    cases ys with
    | nil => simp [beqElems]
    | cons y ys =>
      simp only [beqElems, Bool.and_eq_true, List.cons.injEq]
      exact fun h => ⟨eq_of_beq x y h.1, eq_of_beqElems xs ys h.2⟩
theorem eq_of_beqEntries : ∀ xs ys : List (String × JVal), beqEntries xs ys = true → xs = ys
  | [], ys => by cases ys <;> simp [beqEntries]
  | (k, x) :: xs, ys => by
    cases ys with
    | nil => simp [beqEntries]
    | cons y ys =>
      obtain ⟨l, y⟩ := y
      simp only [beqEntries, Bool.and_eq_true, decide_eq_true_eq, List.cons.injEq, Prod.mk.injEq]
      exact fun h => ⟨⟨h.1, eq_of_beq x y h.2.1⟩, eq_of_beqEntries xs ys h.2.2⟩
end

instance : DecidableEq JVal := fun a b =>
  decidable_of_iff (beq a b = true) ⟨eq_of_beq a b, fun h => h ▸ beq_refl a⟩

/-- JavaScript truthiness (`ToBoolean`). -/
def truthy : JVal → Bool
  | .undef => false
  | .null => false
  | .bool b => b
  | .num n => decide (n ≠ 0)
  | .str s => decide (s ≠ "")
  | .arr _ => true
  | .obj _ => true

/-- The test `typeof v === 'object'`: true of `null`, arrays and objects. -/
def isObjectType : JVal → Bool
  | .null => true
  | .arr _ => true
  | .obj _ => true
  | _ => false

end JVal

open JVal

/-- Value of the first entry stored under key `k`, if there is one. -/
def lookupKey (k : String) : List (String × JVal) → Option JVal
  | [] => none
  | (l, v) :: rest => if l = k then some v else lookupKey k rest

/-- Elements of an array paired with their index keys `"i"`, `"i+1"`, ... -/
def indexEntries (i : Nat) : List JVal → List (String × JVal)
  | [] => []
  | v :: rest => (toString i, v) :: indexEntries (i + 1) rest

/-- Own enumerable properties of a value, in `Object.keys` order: the entries of
an object, the indexed elements of an array, the indexed characters of a string,
none for any other primitive. -/
def ownEntries : JVal → List (String × JVal)
  | .obj kvs => kvs
  | .arr xs => indexEntries 0 xs
  | .str s => indexEntries 0 (s.data.map fun c => JVal.str (String.singleton c))
  | _ => []

/-- Property read `v[k]`: throws on `undefined` and `null`, yields `undefined`
when the property is missing. -/
def getProp (v : JVal) (k : String) : Option JVal :=
  match v with
  | .undef => none
  | .null => none
  | .arr xs =>
    if k = "length" then some (.num xs.length) else some ((lookupKey k (ownEntries (.arr xs))).getD .undef)
  | .str s =>
    if k = "length" then some (.num s.length) else some ((lookupKey k (ownEntries (.str s))).getD .undef)
  | w => some ((lookupKey k (ownEntries w)).getD .undef)

/-- Replace the value of the first entry under key `k`, or append a new entry. -/
def setEntry (k : String) (x : JVal) : List (String × JVal) → List (String × JVal)
  | [] => [(k, x)]
  | (l, v) :: rest => if l = k then (l, x) :: rest else (l, v) :: setEntry k x rest

/-- Property write `v[k] = x` on an object: the key is created when it is not
there.  The program assigns properties to objects only. -/
def setProp (v : JVal) (k : String) (x : JVal) : JVal :=
  match v with
  | .obj kvs => .obj (setEntry k x kvs)
  | w => w

/-- Replace the value of the first entry under key `k`; nothing changes when no
entry has that key. -/
def replaceEntry (k : String) (x : JVal) : List (String × JVal) → List (String × JVal)
  | [] => []
  | (l, v) :: rest => if l = k then (l, x) :: rest else (l, v) :: replaceEntry k x rest

/-- Replace the element whose index key is `k`; nothing changes when no element
has that key. -/
def replaceIndex (k : String) (x : JVal) (i : Nat) : List JVal → List JVal
  | [] => []
  | v :: rest => if toString i = k then x :: rest else v :: replaceIndex k x (i + 1) rest

/-- The tree `v` once the node it holds under the key `k` has been mutated in
place into `x`.  No key is created. -/
def putBack (v : JVal) (k : String) (x : JVal) : JVal :=
  match v with
  | .obj kvs => .obj (replaceEntry k x kvs)
  | .arr xs => .arr (replaceIndex k x 0 xs)
  | w => w

/-! ## String conversion and the pointer pattern -/

mutual
/-- String conversion (`ToString`) as `RegExp.prototype.exec` applies it to its
argument.  A plain object converts to `[object Object]`; an array is the
comma-joined conversion of its elements, `undefined` and `null` elements giving
the empty string. -/
def toStr : JVal → String
  | .undef => "undefined"
  | .null => "null"
  | .bool b => if b then "true" else "false"
  | .num n => toString n
  | .str s => s
  | .arr xs => String.intercalate "," (elemStrs xs)
  | .obj _ => "[object Object]"
/-- String conversions of the elements of an array, as `join` takes them. -/
def elemStrs : List JVal → List String
  | [] => []
  | .undef :: rest => "" :: elemStrs rest
  | .null :: rest => "" :: elemStrs rest
  | v :: rest => toStr v :: elemStrs rest
end

/-- The character class `[\-\w]`: ASCII letters, digits, `_` and `-`. -/
def isNameChar (c : Char) : Bool :=
  c.isAlphanum || c = '_' || c = '-'

/-- The literal part of the pattern, `#/components/schemas/`. -/
def schemaRefLead : List Char := "#/components/schemas/".data

/-- Remove `lead` from the front of `s`, if `s` starts with it. -/
def stripLead : List Char → List Char → Option (List Char)
  | [], s => some s
  | _ :: _, [] => none
  | p :: ps, c :: cs => if p = c then stripLead ps cs else none

/-- Match of `/#\/components\/schemas\/([\-\w]+)/` anchored at the start of `s`:
the captured group, the longest run of name characters after the literal part. -/
def matchSchemaRefAt (s : List Char) : Option (List Char) :=
  match stripLead schemaRefLead s with
  | none => none
  | some rest =>
    match rest.takeWhile isNameChar with
    | [] => none
    | c :: cs => some (c :: cs)

/-- The capture group of `/#\/components\/schemas\/([\-\w]+)/.exec(s)`: the
pattern is not anchored, so the leftmost position where it matches is taken. -/
def execSchemaRef : List Char → Option (List Char)
  | [] => none
  | c :: cs =>
    match matchSchemaRefAt (c :: cs) with
    | some name => some name
    | none => execSchemaRef cs

/-- The placeholder `'{{model: ' + name + '}}'`. -/
def placeholder (name : List Char) : JVal :=
  .str ("\x7b\x7bmodel: " ++ String.mk name ++ "\x7d\x7d")

/-! ## `openapi.js` -/

/-- The assignment made for a `$ref` key (lines 10-13 of `openapi.js`): the
value of `obj[key]` after it.  `exec` converts its argument to a string. -/
def replaceRefValue (v : JVal) : JVal :=
  match execSchemaRef (toStr v).data with
  | some name => placeholder name
  | none => v

mutual
/-- The inner function `replaceRefs` of `replaceOpenAPIRefs`, returning the tree
it leaves behind.  A falsy argument returns at once; a primitive has no key
whose value is an object. -/
def replaceRefs : JVal → JVal
  | .obj kvs => .obj (replaceRefsEntries kvs)
  | .arr xs => .arr (replaceRefsElems xs)
  | v => v
/-- The loop of `replaceRefs` over the keys of an object. -/
def replaceRefsEntries : List (String × JVal) → List (String × JVal)
  | [] => []
  | (k, v) :: rest =>
    if k = "$ref" then (k, replaceRefValue v) :: replaceRefsEntries rest
    else if v.isObjectType then (k, replaceRefs v) :: replaceRefsEntries rest
    else (k, v) :: replaceRefsEntries rest
/-- The loop of `replaceRefs` over the indices of an array: no index is `$ref`. -/
def replaceRefsElems : List JVal → List JVal
  | [] => []
  | v :: rest =>
    if v.isObjectType then replaceRefs v :: replaceRefsElems rest
    else v :: replaceRefsElems rest
end

/-- Function `replaceOpenAPIRefs`, line 3 of `openapi.js`: the tree after the call. -/
def replaceOpenAPIRefs (openAPISpec : JVal) : JVal :=
  replaceRefs openAPISpec

/-- Export `replaceOpenAPIIDefinitions` of `openapi.js`. -/
def replaceOpenAPIIDefinitions (openAPISpecs : JVal) : JVal :=
  replaceOpenAPIRefs openAPISpecs

/-- A Model Definition `{name, description, contentType: 'application/json', schema}`. -/
def modelDefinition (name : String) (description schema : JVal) : JVal :=
  .obj [("name", .str name), ("description", description),
    ("contentType", .str "application/json"), ("schema", schema)]

/-- What a call of `extractModelDefinition` leaves behind: the returned value,
the argument `param` after the call and the collection `models` after the call. -/
structure Extraction where
  ret : JVal
  param : JVal
  models : List JVal
  deriving DecidableEq

/-- Function `extractModelDefinition`, line 23 of `openapi.js`.  When the `$ref`
of the schema is truthy but the pattern does not match, control leaves the
function without a `return`, so the call yields `undefined`. -/
def extractModelDefinition (param : JVal) (name : String) (models : List JVal) :
    Option Extraction :=
  match getProp param "schema" with
  | none => none
  | some schema =>
    match getProp schema "$ref" with
    | none => none
    | some ref =>
      if ref.truthy then
        match execSchemaRef (toStr ref).data with
        | some m => some ⟨.str (String.mk m), param, models⟩
        | none => some ⟨.undef, param, models⟩
      else
        match getProp param "description" with
        | none => none
        | some description =>
          some ⟨.str name, putBack param "schema" (replaceOpenAPIRefs schema),
            models ++ [modelDefinition name description (replaceOpenAPIRefs schema)]⟩

/-- Export `extractOpenAPIModel` of `openapi.js`. -/
def extractOpenAPIModel (param : JVal) (name : String) (models : List JVal) :
    Option Extraction :=
  extractModelDefinition param name models

/-! ## `index.js`: the data of the host -/

/-- An `http` event in object form, `{path, method}`, with the `documentation`
field that normalisation writes (`none`: the field is not set). -/
structure HttpEvent where
  path : String
  method : String
  documentation : Option JVal
  deriving DecidableEq

/-- An event of a function; `http` is `none` for an event of another kind. -/
structure Event where
  http : Option HttpEvent
  deriving DecidableEq

/-- A declared function: a name of `getAllFunctions()` with what `getFunction`
returns for it.  `events` is `none` when the function declares no `events`. -/
structure FunctionDecl where
  name : String
  events : Option (List Event)
  deriving DecidableEq

/-- The object `methodDoc` while it is being built. -/
structure MethodDoc where
  requestHeaders : List JVal
  pathParams : List JVal
  queryParams : List JVal
  requestModels : List (String × JVal)
  description : JVal
  summary : JVal
  methodResponses : Option (List JVal)
  deriving DecidableEq

/-- The object `methodDoc` as it is stored on the event: the keys of the literal
in source order, then `methodResponses` if it was assigned. -/
def MethodDoc.toJVal (d : MethodDoc) : JVal :=
  .obj ([("requestHeaders", .arr d.requestHeaders), ("pathParams", .arr d.pathParams),
      ("queryParams", .arr d.queryParams), ("requestModels", .obj d.requestModels),
      ("description", d.description), ("summary", d.summary)]
    ++ match d.methodResponses with
       | none => []
       | some rs => [("methodResponses", .arr rs)])

/-- The mutable data of the component-dialect walk: `paths` of the original
specification, `paths` of the validated copy, the collection
`customVars.documentation.models`, and the messages given to `serverless.cli.log`. -/
structure NormState where
  paths : JVal
  parsePath : JVal
  models : List JVal
  logs : List String
  deriving DecidableEq

/-- The tree `v` once the node reached from it along the keys `k1`, `k2`, ... has
been mutated in place into `x`. -/
def setIn : JVal → List String → JVal → JVal
  | _, [], x => x
  | v, k :: ks, x =>
    match getProp v k with
    | none => v
    | some child => putBack v k (setIn child ks x)

/-- Method `log` of the plugin: the message given to `serverless.cli.log`. -/
def logLine (format : String) : String :=
  "[serverless-aws-documentation] " ++ format

/-- The literal pushed for a header, path or query parameter: `name`,
`description` and `required` of the parameter. -/
def paramDoc (param : JVal) : Option JVal :=
  match getProp param "name", getProp param "description", getProp param "required" with
  | some n, some d, some r => some (.obj [("name", n), ("description", d), ("required", r)])
  | _, _, _ => none

/-! ## `index.js`: the component-dialect branch of `beforeDeploy` -/

/-- Lines 88-95: the Model Definitions of the declared schemas, in key order. -/
def schemaModels : List (String × JVal) → Option (List JVal)
  | [] => some []
  | (definitionName, schema) :: rest =>
    match getProp schema "description" with
    | none => none
    | some description =>
      match schemaModels rest with
      | none => none
      | some ms => some (modelDefinition definitionName description schema :: ms)

/-- Lines 84-98: the collection `customVars.documentation.models` built from the
`components` of the validated copy. -/
def openapiModels (components : JVal) : Option (List JVal) :=
  match getProp (if components.truthy then components else .obj []) "schemas" with
  | none => none
  | some openAPIDefs =>
    if openAPIDefs.truthy then schemaModels (ownEntries openAPIDefs) else some []

/-- Lines 124-149: the body of `parameters.forEach`, for one parameter.  Returns
the parameter as the call leaves it. -/
def openapiParam (functionName : String) (doc : MethodDoc) (models : List JVal) (param : JVal) :
    Option (MethodDoc × List JVal × JVal) :=
  match getProp param "in" with
  | none => none
  | some loc =>
    if loc = .str "header" then
      (paramDoc param).map fun d =>
        ({ doc with requestHeaders := doc.requestHeaders ++ [d] }, models, param)
    else if loc = .str "path" then
      (paramDoc param).map fun d =>
        ({ doc with pathParams := doc.pathParams ++ [d] }, models, param)
    else if loc = .str "query" then
      (paramDoc param).map fun d =>
        ({ doc with queryParams := doc.queryParams ++ [d] }, models, param)
    else if loc = .str "body" then
      (extractOpenAPIModel param (functionName ++ "Request") models).map fun r =>
        ({ doc with requestModels := setEntry "application/json" r.ret doc.requestModels },
          r.models, r.param)
    else some (doc, models, param)

/-- Line 124: `parameters.forEach`, in order. -/
def openapiParams (functionName : String) :
    MethodDoc → List JVal → List JVal → Option (MethodDoc × List JVal × List JVal)
  | doc, models, [] => some (doc, models, [])
  | doc, models, param :: rest =>
    match openapiParam functionName doc models param with
    | none => none
    | some (doc1, models1, param1) =>
      match openapiParams functionName doc1 models1 rest with
      | none => none
      | some (doc2, models2, rest2) => some (doc2, models2, param1 :: rest2)

/-- Lines 122-150: the parameters of the validated copy are walked when the
method of the original specification declares `parameters`; `forEach` exists on
arrays only.  Returns the validated `paths` as the walk leaves them. -/
def openapiParameters (functionName : String) (http : HttpEvent) (method : JVal)
    (doc : MethodDoc) (models : List JVal) (parsePath : JVal) :
    Option (MethodDoc × List JVal × JVal) :=
  match getProp method "parameters" with
  | none => none
  | some declared =>
    if declared.truthy then
      match getProp parsePath ("/" ++ http.path) with
      | none => none
      | some parsedPathItem =>
        match getProp parsedPathItem http.method with
        | none => none
        | some parsedMethod =>
          match getProp parsedMethod "parameters" with
          | some (.arr parameters) =>
            (openapiParams functionName doc models parameters).map fun r =>
              (r.1, r.2.1,
                setIn parsePath ["/" ++ http.path, http.method, "parameters"] (.arr r.2.2))
          | _ => none
    else some (doc, models, parsePath)

/-- Lines 152-158: the request body.  Returns the method as the call leaves it. -/
def openapiRequestBody (functionName : String) (method : JVal) (doc : MethodDoc)
    (models : List JVal) : Option (MethodDoc × List JVal × JVal) :=
  match getProp method "requestBody" with
  | none => none
  | some requestBody =>
    match getProp (if requestBody.truthy then requestBody else .obj []) "content" with
    | none => none
    | some content =>
      if content.truthy then
        match getProp content "application/json" with
        | none => none
        | some param =>
          (extractOpenAPIModel param (functionName ++ "Request") models).map fun r =>
            ({ doc with requestModels := setEntry "application/json" r.ret doc.requestModels },
              r.models,
              setIn method ["requestBody", "content", "application/json"] r.param)
      else some (doc, models, method)

/-- The value of `response.content && response.content['application/json']`, or
an empty object when that value is falsy. -/
def jsonContent (response : JVal) : Option JVal :=
  match getProp response "content" with
  | none => none
  | some content =>
    if content.truthy then
      match getProp content "application/json" with
      | none => none
      | some media => some (if media.truthy then media else .obj [])
    else some (.obj [])

/-- Lines 163-176: the callback of `Object.keys(method.responses).map`, for one
status code.  Returns the pushed `methodResponse`, the collection and the
response as the call leaves it. -/
def openapiResponse (functionName : String) (models : List JVal) (statusCode : String)
    (response : JVal) : Option (JVal × List JVal × JVal) :=
  match jsonContent response with
  | none => none
  | some media =>
    match getProp media "schema" with
    | none => none
    | some schema =>
      if schema.truthy then
        (extractOpenAPIModel media (functionName ++ "Response") models).map fun r =>
          (.obj [("statusCode", .str statusCode),
              ("responseModels", .obj [("application/json", r.ret)])],
            r.models, setIn response ["content", "application/json"] r.param)
      else some (.obj [("statusCode", .str statusCode)], models, response)

/-- Line 163: the status codes in `Object.keys` order. -/
def openapiResponseList (functionName : String) :
    List JVal → List (String × JVal) → Option (List JVal × List JVal × List (String × JVal))
  | models, [] => some ([], models, [])
  | models, (statusCode, response) :: rest =>
    match openapiResponse functionName models statusCode response with
    | none => none
    | some (methodResponse, models1, response1) =>
      match openapiResponseList functionName models1 rest with
      | none => none
      | some (out, models2, rest2) =>
        some (methodResponse :: out, models2, (statusCode, response1) :: rest2)

/-- The container `responses` with its own values replaced, key by key. -/
def withOwnValues (responses : JVal) (entries : List (String × JVal)) : JVal :=
  match responses with
  | .obj _ => .obj entries
  | .arr _ => .arr (entries.map Prod.snd)
  | w => w

/-- Lines 160-177: the responses.  Returns the method as the walk leaves it. -/
def openapiResponses (functionName : String) (method : JVal) (doc : MethodDoc)
    (models : List JVal) : Option (MethodDoc × List JVal × JVal) :=
  match getProp method "responses" with
  | none => none
  | some responses =>
    if responses.truthy then
      (openapiResponseList functionName models (ownEntries responses)).map fun r =>
        ({ doc with methodResponses := some r.1 }, r.2.1,
          putBack method "responses" (withOwnValues responses r.2.2))
    else some (doc, models, method)

/-- Lines 114-178: a method found in the specification gets its `methodDoc`,
which is stored on the event. -/
def openapiMethod (functionName : String) (st : NormState) (http : HttpEvent) (method : JVal) :
    Option (NormState × Event) :=
  match getProp method "description", getProp method "summary" with
  | some description, some summary =>
    match openapiParameters functionName http method
        ⟨[], [], [], [], description, summary, none⟩ st.models st.parsePath with
    | none => none
    | some (doc1, models1, parsePath1) =>
      match openapiRequestBody functionName method doc1 models1 with
      | none => none
      | some (doc2, models2, method2) =>
        match openapiResponses functionName method2 doc2 models2 with
        | none => none
        | some (doc3, models3, method3) =>
          some (⟨setIn st.paths ["/" ++ http.path, http.method] method3, parsePath1, models3,
              st.logs⟩,
            ⟨some { http with documentation := some doc3.toJVal }⟩)
  | _, _ => none

/-- Lines 104-180: the callback of `func.events.forEach`, for one event. -/
def openapiEvent (functionName : String) (st : NormState) (event : Event) :
    Option (NormState × Event) :=
  match event.http with
  | none => some (st, event)
  | some http =>
    match getProp st.paths ("/" ++ http.path) with
    | none => none
    | some path =>
      if path.truthy then
        match getProp path http.method with
        | none => none
        | some method =>
          if method.truthy then openapiMethod functionName st http method
          else
            some ({ st with logs := st.logs ++ [logLine ("Documentation for function "
              ++ functionName ++ " not found for event with " ++ http.method)] }, event)
      else some (st, event)

/-- Line 104: `func.events.forEach`, in order. -/
def openapiEvents (functionName : String) :
    NormState → List Event → Option (NormState × List Event)
  | st, [] => some (st, [])
  | st, event :: rest =>
    match openapiEvent functionName st event with
    | none => none
    | some (st1, event1) =>
      match openapiEvents functionName st1 rest with
      | none => none
      | some (st2, rest2) => some (st2, event1 :: rest2)

/-- Lines 101-183: `getAllFunctions().forEach`, in order. -/
def openapiFunctions : NormState → List FunctionDecl → Option (NormState × List FunctionDecl)
  | st, [] => some (st, [])
  | st, func :: rest =>
    match func.events with
    | none => (openapiFunctions st rest).map fun r => (r.1, func :: r.2)
    | some events =>
      match openapiEvents func.name st events with
      | none => none
      | some (st1, events1) =>
        (openapiFunctions st1 rest).map fun r => (r.1, ⟨func.name, some events1⟩ :: r.2)

/-- What the component-dialect normalisation leaves behind. -/
structure Normalized where
  api : JVal
  parsedData : JVal
  models : List JVal
  functions : List FunctionDecl
  logs : List String
  deriving DecidableEq

/-- Lines 79-183 of `beforeDeploy`: the component-dialect normalisation, run in
the callback of `SwaggerParser.validate` once validation has succeeded with
`parsedData`.  `api` is `customVars.documentation.api`. -/
def normalizeOpenAPI (api parsedData : JVal) (functions : List FunctionDecl) :
    Option Normalized :=
  match getProp api "paths", getProp parsedData "components", getProp parsedData "paths" with
  | some paths, some components, some parsePath =>
    match getProp api "components" with
    | none => none
    | some apiComponents =>
      match getProp apiComponents "schemas" with
      | none => none
      | some apiSchemas =>
        match openapiModels components with
        | none => none
        | some models =>
          match openapiFunctions ⟨paths, parsePath, models, []⟩ functions with
          | none => none
          | some (st, functions1) =>
            some ⟨putBack
                  (setIn api ["components", "schemas"] (replaceOpenAPIIDefinitions apiSchemas))
                  "paths" st.paths,
              putBack parsedData "paths" st.parsePath, st.models, functions1, st.logs⟩
  | _, _, _ => none

/-! ## `index.js`: the legacy-dialect branch of `beforeDeploy` -/

/-- The two functions of `swagger.js` that the legacy branch calls.  That file
is not among the sources, so they are parameters: each returns what it leaves
behind, its argument after the call included, or throws. -/
structure SwaggerOps where
  replaceSwaggerDefinitions : JVal → Option JVal
  extractModel : JVal → List JVal → Option Extraction

/-- The mutable data of the legacy walk: `customVars.documentation.paths` and
`customVars.documentation.models`. -/
structure SwaggerState where
  paths : JVal
  models : List JVal
  deriving DecidableEq

/-- Lines 226-249: the body of `method.parameters.forEach`, for one parameter. -/
def swaggerParam (ops : SwaggerOps) (doc : MethodDoc) (models : List JVal) (param : JVal) :
    Option (MethodDoc × List JVal × JVal) :=
  match getProp param "in" with
  | none => none
  | some loc =>
    if loc = .str "header" then
      (paramDoc param).map fun d =>
        ({ doc with requestHeaders := doc.requestHeaders ++ [d] }, models, param)
    else if loc = .str "path" then
      (paramDoc param).map fun d =>
        ({ doc with pathParams := doc.pathParams ++ [d] }, models, param)
    else if loc = .str "query" then
      (paramDoc param).map fun d =>
        ({ doc with queryParams := doc.queryParams ++ [d] }, models, param)
    else if loc = .str "body" then
      (ops.extractModel param models).map fun r =>
        ({ doc with requestModels := setEntry "application/json" r.ret doc.requestModels },
          r.models, r.param)
    else some (doc, models, param)

/-- Line 226: `method.parameters.forEach`, in order. -/
def swaggerParams (ops : SwaggerOps) :
    MethodDoc → List JVal → List JVal → Option (MethodDoc × List JVal × List JVal)
  | doc, models, [] => some (doc, models, [])
  | doc, models, param :: rest =>
    match swaggerParam ops doc models param with
    | none => none
    | some (doc1, models1, param1) =>
      match swaggerParams ops doc1 models1 rest with
      | none => none
      | some (doc2, models2, rest2) => some (doc2, models2, param1 :: rest2)

/-- Lines 225-250: the parameters, read off the specification itself. -/
def swaggerParameters (ops : SwaggerOps) (method : JVal) (doc : MethodDoc)
    (models : List JVal) : Option (MethodDoc × List JVal × JVal) :=
  match getProp method "parameters" with
  | none => none
  | some declared =>
    if declared.truthy then
      match declared with
      | .arr parameters =>
        (swaggerParams ops doc models parameters).map fun r =>
          (r.1, r.2.1, putBack method "parameters" (.arr r.2.2))
      | _ => none
    else some (doc, models, method)

/-- Lines 254-267: the callback of `Object.keys(method.responses).map`, for one
status code. -/
def swaggerResponse (ops : SwaggerOps) (models : List JVal) (statusCode : String)
    (response : JVal) : Option (JVal × List JVal × JVal) :=
  match getProp response "schema" with
  | none => none
  | some schema =>
    if schema.truthy then
      (ops.extractModel response models).map fun r =>
        (.obj [("statusCode", .str statusCode),
            ("responseModels", .obj [("application/json", r.ret)])],
          r.models, r.param)
    else some (.obj [("statusCode", .str statusCode)], models, response)

/-- Line 254: the status codes in `Object.keys` order. -/
def swaggerResponseList (ops : SwaggerOps) :
    List JVal → List (String × JVal) → Option (List JVal × List JVal × List (String × JVal))
  | models, [] => some ([], models, [])
  | models, (statusCode, response) :: rest =>
    match swaggerResponse ops models statusCode response with
    | none => none
    | some (methodResponse, models1, response1) =>
      match swaggerResponseList ops models1 rest with
      | none => none
      | some (out, models2, rest2) =>
        some (methodResponse :: out, models2, (statusCode, response1) :: rest2)

/-- Lines 252-268: the responses. -/
def swaggerResponses (ops : SwaggerOps) (method : JVal) (doc : MethodDoc)
    (models : List JVal) : Option (MethodDoc × List JVal × JVal) :=
  match getProp method "responses" with
  | none => none
  | some responses =>
    if responses.truthy then
      (swaggerResponseList ops models (ownEntries responses)).map fun r =>
        ({ doc with methodResponses := some r.1 }, r.2.1,
          putBack method "responses" (withOwnValues responses r.2.2))
    else some (doc, models, method)

/-- Lines 216-270: the method entry is read without a test, its `methodDoc` is
built and stored on the event. -/
def swaggerMethod (ops : SwaggerOps) (st : SwaggerState) (http : HttpEvent) (method : JVal) :
    Option (SwaggerState × Event) :=
  match getProp method "description", getProp method "summary" with
  | some description, some summary =>
    match swaggerParameters ops method ⟨[], [], [], [], description, summary, none⟩ st.models with
    | none => none
    | some (doc1, models1, method1) =>
      match swaggerResponses ops method1 doc1 models1 with
      | none => none
      | some (doc2, models2, method2) =>
        some (⟨setIn st.paths ["/" ++ http.path, http.method] method2, models2⟩,
          ⟨some { http with documentation := some doc2.toJVal }⟩)
  | _, _ => none

/-- Lines 211-273: the callback of `func.events.forEach`, for one event. -/
def swaggerEvent (ops : SwaggerOps) (st : SwaggerState) (event : Event) :
    Option (SwaggerState × Event) :=
  match event.http with
  | none => some (st, event)
  | some http =>
    match getProp st.paths ("/" ++ http.path) with
    | none => none
    | some path =>
      if path.truthy then
        match getProp path http.method with
        | none => none
        | some method => swaggerMethod ops st http method
      else some (st, event)

/-- Line 211: `func.events.forEach`, in order. -/
def swaggerEvents (ops : SwaggerOps) :
    SwaggerState → List Event → Option (SwaggerState × List Event)
  | st, [] => some (st, [])
  | st, event :: rest =>
    match swaggerEvent ops st event with
    | none => none
    | some (st1, event1) =>
      match swaggerEvents ops st1 rest with
      | none => none
      | some (st2, rest2) => some (st2, event1 :: rest2)

/-- Lines 208-275: `getAllFunctions().forEach`, in order. -/
def swaggerFunctions (ops : SwaggerOps) :
    SwaggerState → List FunctionDecl → Option (SwaggerState × List FunctionDecl)
  | st, [] => some (st, [])
  | st, func :: rest =>
    match func.events with
    | none => (swaggerFunctions ops st rest).map fun r => (r.1, func :: r.2)
    | some events =>
      match swaggerEvents ops st events with
      | none => none
      | some (st1, events1) =>
        (swaggerFunctions ops st1 rest).map fun r => (r.1, ⟨func.name, some events1⟩ :: r.2)

/-- What the legacy normalisation leaves behind: `customVars.documentation` and
the declared functions. -/
structure SwaggerNormalized where
  documentation : JVal
  functions : List FunctionDecl
  deriving DecidableEq

/-- Lines 188-276 of `beforeDeploy`: the legacy normalisation, which runs only
when `customVars.documentation.swagger` is truthy. -/
def normalizeSwagger (ops : SwaggerOps) (documentation : JVal)
    (functions : List FunctionDecl) : Option SwaggerNormalized :=
  match getProp documentation "swagger" with
  | none => none
  | some swagger =>
    if swagger.truthy then
      match getProp documentation "definitions" with
      | none => none
      | some definitions =>
        match ops.replaceSwaggerDefinitions definitions with
        | none => none
        | some swaggerDefs =>
          match (if swaggerDefs.truthy then schemaModels (ownEntries swaggerDefs) else some []),
              getProp documentation "paths" with
          | some models, some paths =>
            match swaggerFunctions ops ⟨paths, models⟩ functions with
            | none => none
            | some (st, functions1) =>
              some ⟨putBack (setProp (putBack documentation "definitions" swaggerDefs)
                  "models" (.arr st.models)) "paths" st.paths, functions1⟩
          | _, _ => none
    else some ⟨documentation, functions⟩

/-! ## Specification-side vocabulary -/

/-- The last path segment of a pointer: the text after its final `/`. -/
def lastPathSegment (s : List Char) : List Char :=
  (s.reverse.takeWhile fun c => c ≠ '/').reverse

/-- What the resolver does to the value `v` stored under a `$ref` key, `w` being
the value afterwards: the placeholder of the captured name when the string
conversion of `v` matches the pattern, `v` itself when it does not. -/
def sameRef (v w : JVal) : Bool :=
  match execSchemaRef (toStr v).data with
  | some name => decide (w = placeholder name)
  | none => decide (w = v)

mutual
/-- Two trees agree outside matching `$ref` values: an object faces an object
with the same keys in the same order, an array an array of the same length, a
leaf the identical leaf, and a value under the key `$ref` obeys `sameRef`. -/
def sameFrame : JVal → JVal → Bool
  | .obj kvs, .obj lws => sameFrameEntries kvs lws
  | .arr xs, .arr ys => sameFrameElems xs ys
  | .obj _, _ => false
  | .arr _, _ => false
  | v, w => decide (v = w)
/-- Entry lists agree outside matching `$ref` values. -/
def sameFrameEntries : List (String × JVal) → List (String × JVal) → Bool
  | [], [] => true
  | (k, v) :: kvs, (l, w) :: lws =>
    decide (k = l) && ((if k = "$ref" then sameRef v w else sameFrame v w) && sameFrameEntries kvs lws)
  | _, _ => false
/-- Element lists agree outside matching `$ref` values. -/
def sameFrameElems : List JVal → List JVal → Bool
  | [], [] => true
  | v :: xs, w :: ys => sameFrame v w && sameFrameElems xs ys
  | _, _ => false
end

/-- The mapping `requestModels` is empty or holds the one key `application/json`. -/
def RequestModelsShape (doc : MethodDoc) : Prop :=
  doc.requestModels = [] ∨ ∃ v, doc.requestModels = [("application/json", v)]

/-- The mapping `paths` has no entry under the key `q`. -/
def pathAbsent (q : String) (paths : JVal) : Bool :=
  match paths with
  | .obj kvs => (lookupKey q kvs).isNone
  | _ => false

/-- The mapping `paths` has under the key `p` a mapping with no entry under the
key `m`. -/
def methodAbsent (p m : String) (paths : JVal) : Bool :=
  match paths with
  | .obj kvs =>
    match lookupKey p kvs with
    | some (.obj mkvs) => (lookupKey m mkvs).isNone
    | _ => false
  | _ => false

/-- The declared functions with `event` inserted before the event of index `j`
of the function of index `i` (after its last event when it has no more than `j`
events). -/
def insertEvent (event : Event) (j : Nat) : Nat → List FunctionDecl → List FunctionDecl
  | _, [] => []
  | 0, func :: rest =>
    ⟨func.name, func.events.map fun es => es.take j ++ event :: es.drop j⟩ :: rest
  | i + 1, func :: rest => func :: insertEvent event j i rest

/-- The messages with `line` inserted before the message of index `k`. -/
def insertLine (line : String) (k : Nat) (logs : List String) : List String :=
  logs.take k ++ line :: logs.drop k

/-- Some Model Definition of the collection has the name `n`. -/
def hasModelNamed (n : String) (models : List JVal) : Bool :=
  models.any fun m => decide (getProp m "name" = some (.str n))

/-! ## Example data -/

/-- A component-dialect specification: one schema `Widget` with two string
properties, one path `/widgets` whose method `get` answers `200` with JSON
content that refers to `#/components/schemas/Widget`. -/
def widgetApi : JVal :=
  .obj [("openapi", .str "3.0.0"),
    ("paths", .obj [("/widgets", .obj [("get", .obj [("responses", .obj [("200", .obj [
      ("description", .str "ok"),
      ("content", .obj [("application/json", .obj [("schema",
        .obj [("$ref", .str "#/components/schemas/Widget")])])])])])])])]),
    ("components", .obj [("schemas", .obj [("Widget", .obj [("type", .str "object"),
      ("properties", .obj [("id", .obj [("type", .str "string")]),
        ("name", .obj [("type", .str "string")])])])])])]

/-- The schema `Widget` of `widgetApi`. -/
def widgetSchema : JVal :=
  .obj [("type", .str "object"),
    ("properties", .obj [("id", .obj [("type", .str "string")]),
      ("name", .obj [("type", .str "string")])])]

/-- A parameter-like input whose schema is the reference to `Widget`. -/
def widgetRefParam : JVal :=
  .obj [("schema", .obj [("$ref", .str "#/components/schemas/Widget")])]

/-- A component-dialect specification: one path `/widgets` whose method `post`
has a request body with an inline JSON schema. -/
def createWidgetApi : JVal :=
  .obj [("openapi", .str "3.0.0"),
    ("paths", .obj [("/widgets", .obj [("post", .obj [
      ("requestBody", .obj [("content", .obj [("application/json", .obj [("schema",
        .obj [("type", .str "object"),
          ("properties", .obj [("name", .obj [("type", .str "string")])])])])])]),
      ("responses", .obj [("201", .obj [("description", .str "created")])])])])]),
    ("components", .obj [("schemas", .obj [])])]

/-- The inline request schema of `createWidgetApi`. -/
def createWidgetSchema : List (String × JVal) :=
  [("type", .str "object"), ("properties", .obj [("name", .obj [("type", .str "string")])])]

/-- The `paths` of `createWidgetApi`. -/
def createWidgetPaths : JVal :=
  .obj [("/widgets", .obj [("post", .obj [
    ("requestBody", .obj [("content", .obj [("application/json", .obj [("schema",
      .obj createWidgetSchema)])])]),
    ("responses", .obj [("201", .obj [("description", .str "created")])])])])]

/-- A legacy configuration `customVars.documentation`: one definition `Widget`,
one path `/widgets` with the method `get`. -/
def legacyDocumentation : JVal :=
  .obj [("swagger", .bool true),
    ("definitions", .obj [("Widget", .obj [("type", .str "object")])]),
    ("paths", .obj [("/widgets", .obj [("get", .obj [("responses", .obj [("200", .obj [
      ("description", .str "ok")])])])])])]

/-- Stand-ins for the two functions of `swagger.js`, used in examples only: the
definitions are left as they are and no model is extracted. -/
def idleSwaggerOps : SwaggerOps :=
  ⟨fun definitions => some definitions, fun param models => some ⟨.undef, param, models⟩⟩

/-- A parameter-like input whose schema is inline: an array of widgets. -/
def widgetListParam : JVal :=
  .obj [("description", .str "a list of widgets"),
    ("schema", .obj [("type", .str "array"),
      ("items", .obj [("$ref", .str "#/components/schemas/Widget")])])]

/-! ## `index.js`: `checkCFTemplate` -/

/-- The compiled template of the host, `compiledCloudFormationTemplate`: its
resource map and its output map, each an object given by its entries. -/
structure Template where
  Resources : List (String × JVal)
  Outputs : List (String × JVal)
  deriving DecidableEq

/-- The functions of `models.js` and `documentation.js` that `checkCFTemplate`
calls.  Those files are not among the sources, so they are parameters.
`createCfModel restApiId` is the resource builder applied to each Model
Definition; `updateCfTemplateFromHttp` grafts the documentation of an event onto
the resource map and returns the map it leaves behind.  Either may throw. -/
structure TemplateOps where
  createCfModel : JVal → JVal → Option JVal
  updateCfTemplateFromHttp : List (String × JVal) → Event → Option (List (String × JVal))

/-- Lines 287-294: the default reference `Ref: 'ApiGatewayRestApi'`, replaced by
`provider.apiGateway.restApiId` when `provider.apiGateway` and that value are
truthy. -/
def restApiId (apiGateway : JVal) : JVal :=
  if apiGateway.truthy then
    match getProp apiGateway "restApiId" with
    | some configured =>
      if configured.truthy then configured else .obj [("Ref", .str "ApiGatewayRestApi")]
    | none => .obj [("Ref", .str "ApiGatewayRestApi")]
  else .obj [("Ref", .str "ApiGatewayRestApi")]

/-- Line 300: `models.map(cfModelCreator)`. -/
def mapCfModel (cfModelCreator : JVal → Option JVal) : List JVal → Option (List JVal)
  | [] => some []
  | model :: rest =>
    match cfModelCreator model with
    | none => none
    | some resource =>
      match mapCfModel cfModelCreator rest with
      | none => none
      | some resources => some (resource :: resources)

/-- The key of line 302, the template literal of `model.Properties.Name`
followed by `Model`. -/
def modelKey (model : JVal) : Option String :=
  match getProp model "Properties" with
  | none => none
  | some properties =>
    match getProp properties "Name" with
    | none => none
    | some name => some (toStr name ++ "Model")

/-- Lines 301-304: the `reduce` that collects the built resources in one object. -/
def reduceModels : List (String × JVal) → List JVal → Option (List (String × JVal))
  | modelObj, [] => some modelObj
  | modelObj, model :: rest =>
    match modelKey model with
    | none => none
    | some key => reduceModels (setEntry key model modelObj) rest

/-- The call `Object.assign(target, source)` of line 305: every entry of `source`
is assigned to `target`, in order. -/
def objectAssign (target : List (String × JVal)) : List (String × JVal) → List (String × JVal)
  | [] => target
  | (key, value) :: rest => objectAssign (setEntry key value target) rest

/-- Lines 296-306, the template merge: the model collection
`customVars.documentation.models`, when truthy, is mapped to resources that are
merged into the resource map.  `map` exists on arrays only. -/
def mergeModels (cfModelCreator : JVal → Option JVal) (documentation : JVal)
    (resources : List (String × JVal)) : Option (List (String × JVal)) :=
  match getProp documentation "models" with
  | none => none
  | some models =>
    if models.truthy then
      match models with
      | .arr ms =>
        match mapCfModel cfModelCreator ms with
        | none => none
        | some built =>
          match reduceModels [] built with
          | none => none
          | some modelObj => some (objectAssign resources modelObj)
      | _ => none
    else some resources

/-- Line 311: `func.events.forEach(this.updateCfTemplateFromHttp.bind(this))`. -/
def updateEvents (ops : TemplateOps) :
    List (String × JVal) → List Event → Option (List (String × JVal))
  | resources, [] => some resources
  | resources, event :: rest =>
    match ops.updateCfTemplateFromHttp resources event with
    | none => none
    | some resources1 => updateEvents ops resources1 rest

/-- Lines 309-312: `getAllFunctions().forEach`; `func.events` is used without a
test, so a function that declares no `events` throws. -/
def updateFunctions (ops : TemplateOps) :
    List (String × JVal) → List FunctionDecl → Option (List (String × JVal))
  | resources, [] => some resources
  | resources, func :: rest =>
    match func.events with
    | none => none
    | some events =>
      match updateEvents ops resources events with
      | none => none
      | some resources1 => updateFunctions ops resources1 rest

/-- Method `checkCFTemplate`, line 283 of `index.js`: the template it leaves
behind.  `apiGateway` is `provider.apiGateway`, `documentation` is
`customVars.documentation`. -/
def checkCFTemplate (ops : TemplateOps) (apiGateway documentation : JVal)
    (functions : List FunctionDecl) (cfTemplate : Template) : Option Template :=
  match mergeModels (ops.createCfModel (restApiId apiGateway)) documentation
      cfTemplate.Resources with
  | none => none
  | some resources =>
    match updateFunctions ops resources functions with
    | none => none
    | some resources1 =>
      some ⟨resources1, setEntry "AwsDocApiId"
        (.obj [("Description", .str "API ID"), ("Value", restApiId apiGateway)])
        cfTemplate.Outputs⟩

/-! ## `index.js`: `beforeDeploy` -/

/-- What `SwaggerParser.validate` gives to its callback: an error, by the text
it converts to, or the validated data. -/
inductive Validation where
  | failure (err : String) : Validation
  | success (parsedData : JVal) : Validation

/-- The collaborators of the hook: the validation of a deep copy of the
specification, the functions of `swagger.js`, the functions of `models.js` and
`documentation.js`, and `provider.apiGateway`. -/
structure Host where
  validate : JVal → Validation
  swaggerOps : SwaggerOps
  templateOps : TemplateOps
  apiGateway : JVal

/-- What the hook can change: `service.custom`, the events of the declared
functions, the compiled template, and the messages given to `serverless.cli.log`. -/
structure World where
  custom : JVal
  functions : List FunctionDecl
  cfTemplate : Template
  logs : List String
  deriving DecidableEq

/-- How a run of the hook ends: `done` is called (once, as the last statement),
the callback returns without calling `done` so that the promise of the hook
never settles, `process.exit` ends the process, or a `TypeError` is thrown. -/
inductive Outcome where
  | done (w : World) : Outcome
  | pending (w : World) : Outcome
  | exited (w : World) : Outcome
  | threw : Outcome
  deriving DecidableEq

/-- Lines 184-185 and 277-278: `checkCFTemplate()` then `done()`. -/
def finish (host : Host) (custom : JVal) (functions : List FunctionDecl) (w : World)
    (logs : List String) : Outcome :=
  match getProp custom "documentation" with
  | none => .threw
  | some documentation =>
    match checkCFTemplate host.templateOps host.apiGateway documentation functions
        w.cfTemplate with
    | none => .threw
    | some cfTemplate => .done ⟨custom, functions, cfTemplate, logs⟩

/-- Method `beforeDeploy`, line 64 of `index.js`. -/
def beforeDeploy (host : Host) (w : World) : Outcome :=
  if w.custom.truthy then
    match getProp w.custom "documentation" with
    | none => .threw
    | some documentation =>
      if documentation.truthy then
        match getProp documentation "openapi" with
        | none => .threw
        | some openapi =>
          if openapi.truthy then
            match getProp documentation "api" with
            | none => .threw
            | some api =>
              match host.validate api with
              | .failure err => .exited { w with logs := w.logs ++ [logLine err] }
              | .success parsedData =>
                match normalizeOpenAPI api parsedData w.functions with
                | none => .threw
                | some r =>
                  finish host
                    (putBack w.custom "documentation"
                      (setProp (putBack documentation "api" r.api) "models" (.arr r.models)))
                    r.functions w (w.logs ++ r.logs)
          else
            match normalizeSwagger host.swaggerOps documentation w.functions with
            | none => .threw
            | some r =>
              finish host (putBack w.custom "documentation" r.documentation) r.functions w
                w.logs
      else .pending w
  else .pending w

/-! ## Specification-side vocabulary: the template merge -/

/-- The resource key `<name>Model` of a Model Definition. -/
def modelResourceKey (model : JVal) : Option String :=
  match getProp model "name" with
  | none => none
  | some name => some (toStr name ++ "Model")

/-- The resource builder gives every resource it builds the name of its Model
Definition as `Properties.Name`, so that the key of line 302 is `<name>Model`. -/
def NamesByModel (cfModelCreator : JVal → Option JVal) : Prop :=
  ∀ model resource, cfModelCreator model = some resource →
    modelKey resource = modelResourceKey model

/-! ## Example data: the template -/

/-- A resource builder used in examples: a resource of type
`AWS::ApiGateway::Model` that carries the API id and the name, content type and
schema of the Model Definition. -/
def exampleCfModel (restApiId model : JVal) : Option JVal :=
  match getProp model "name", getProp model "contentType", getProp model "schema" with
  | some name, some contentType, some schema =>
    some (.obj [("Type", .str "AWS::ApiGateway::Model"),
      ("Properties", .obj [("RestApiId", restApiId), ("ContentType", contentType),
        ("Name", name), ("Schema", schema)])])
  | _, _, _ => none

/-- Stand-ins for the functions of `models.js` and `documentation.js`, used in
examples only: the example builder, and a graft that leaves the resources as
they are. -/
def exampleTemplateOps : TemplateOps :=
  ⟨exampleCfModel, fun resources _ => some resources⟩

/-- A configuration `customVars.documentation` whose model collection holds two
Model Definitions of the same name `getWidgetResponse` after one named `Widget`. -/
def collidingDocumentation : JVal :=
  .obj [("models", .arr [modelDefinition "Widget" .undef widgetSchema,
    modelDefinition "getWidgetResponse" .undef (.obj [("type", .str "string")]),
    modelDefinition "getWidgetResponse" .undef (.obj [("type", .str "number")])])]

/-- A resource map that already holds the key `WidgetModel`. -/
def exampleResources : List (String × JVal) :=
  [("ApiGatewayRestApi", .obj [("Type", .str "AWS::ApiGateway::RestApi")]),
    ("WidgetModel", .str "stale")]

/-- The resource that `exampleCfModel` builds with the default API id. -/
def exampleResource (name : String) (schema : JVal) : JVal :=
  .obj [("Type", .str "AWS::ApiGateway::Model"),
    ("Properties", .obj [("RestApiId", .obj [("Ref", .str "ApiGatewayRestApi")]),
      ("ContentType", .str "application/json"), ("Name", .str name), ("Schema", schema)])]

/-- The resource map `exampleResources` after the merge of the model collection
of `collidingDocumentation`. -/
def mergedResources : List (String × JVal) :=
  [("ApiGatewayRestApi", .obj [("Type", .str "AWS::ApiGateway::RestApi")]),
    ("WidgetModel", exampleResource "Widget" widgetSchema),
    ("getWidgetResponseModel",
      exampleResource "getWidgetResponse" (.obj [("type", .str "number")]))]

/-! ## Specification-side vocabulary: responses -/

/-- The value of `response.content['application/json']`, `undefined` when there
is none. -/
def jsonMedia (response : JVal) : JVal :=
  match getProp response "content" with
  | none => .undef
  | some content => (getProp content "application/json").getD JVal.undef

/-- The response declares `content['application/json'].schema`. -/
def declaresJsonSchema (response : JVal) : Bool :=
  match getProp (jsonMedia response) "schema" with
  | none => false
  | some schema => schema.truthy

/-! ## Example data: the hook -/

/-- A compiled template with one output. -/
def exampleTemplate : Template :=
  ⟨exampleResources,
    [("ServerlessDeploymentBucketName", .obj [("Ref", .str "ServerlessDeploymentBucket")])]⟩

/-- Collaborators used in examples: validation succeeds and returns the
structure it was given. -/
def exampleHost : Host :=
  ⟨fun api => .success api, idleSwaggerOps, exampleTemplateOps, .undef⟩

/-- Collaborators used in examples: validation fails. -/
def failingHost : Host :=
  ⟨fun _ => .failure "Error: not a valid Openapi API definition", idleSwaggerOps,
    exampleTemplateOps, .undef⟩

/-- A component-dialect specification without a `components` section. -/
def noComponentsApi : JVal :=
  .obj [("openapi", .str "3.0.0"),
    ("info", .obj [("title", .str "widgets"), ("version", .str "1")]),
    ("paths", .obj [("/widgets", .obj [("get", .obj [("responses", .obj [("200", .obj [
      ("description", .str "ok")])])])])])]

/-- A component-dialect specification whose `components` has no `schemas`. -/
def noSchemasApi : JVal :=
  .obj [("openapi", .str "3.0.0"),
    ("info", .obj [("title", .str "widgets"), ("version", .str "1")]),
    ("paths", .obj [("/widgets", .obj [("get", .obj [("responses", .obj [("200", .obj [
      ("description", .str "ok")])])])])]),
    ("components", .obj [])]

/-- A component-dialect specification whose method `post` declares a request
body with `text/plain` content only. -/
def textPlainApi : JVal :=
  .obj [("openapi", .str "3.0.0"),
    ("paths", .obj [("/widgets", .obj [("post", .obj [
      ("requestBody", .obj [("content", .obj [("text/plain", .obj [("schema",
        .obj [("type", .str "string")])])])]),
      ("responses", .obj [("201", .obj [("description", .str "created")])])])])]),
    ("components", .obj [("schemas", .obj [])])]

/-- A component-dialect specification whose method `post` declares a request
body whose `application/json` entry has no schema. -/
def noBodySchemaApi : JVal :=
  .obj [("openapi", .str "3.0.0"),
    ("paths", .obj [("/widgets", .obj [("post", .obj [
      ("requestBody", .obj [("content", .obj [("application/json", .obj [("example",
        .obj [("name", .str "a")])])])]),
      ("responses", .obj [("201", .obj [("description", .str "created")])])])])]),
    ("components", .obj [("schemas", .obj [])])]

/-- The `paths` of a component-dialect specification whose method `get` declares
two responses, `200` with a JSON schema and `404` without content. -/
def twoResponsesPaths : JVal :=
  .obj [("/widgets", .obj [("get", .obj [("responses", .obj [
    ("200", .obj [("description", .str "ok"),
      ("content", .obj [("application/json", .obj [("schema",
        .obj [("$ref", .str "#/components/schemas/Widget")])])])]),
    ("404", .obj [("description", .str "not found")])])])])]

/-! # Theorems -/

/-! ## Property reads -/

theorem getProp_obj (kvs : List (String × JVal)) (k : String) :
    getProp (.obj kvs) k = some ((lookupKey k kvs).getD .undef) := rfl

/-! ## The pointer pattern -/

theorem matchSchemaRefAt_nameChars (s n : List Char) (h : matchSchemaRefAt s = some n) :
    ∀ c ∈ n, isNameChar c = true := by
  unfold matchSchemaRefAt at h
  cases hs : stripLead schemaRefLead s with
  | none => simp [hs] at h
  | some rest =>
    simp only [hs] at h
    cases ht : rest.takeWhile isNameChar with
    | nil => simp [ht] at h
    | cons c cs =>
      simp only [ht, Option.some.injEq] at h
      subst h
      intro d hd
      rw [← ht] at hd
      exact List.mem_takeWhile_imp hd

theorem execSchemaRef_nameChars : ∀ (s n : List Char), execSchemaRef s = some n →
    ∀ c ∈ n, isNameChar c = true
  | [], n, h => by simp [execSchemaRef] at h
  | c :: cs, n, h => by
    unfold execSchemaRef at h
    cases hm : matchSchemaRefAt (c :: cs) with
    | some m =>
      simp only [hm, Option.some.injEq] at h
      subst h
      exact matchSchemaRefAt_nameChars _ _ hm
    | none =>
      simp only [hm] at h
      exact execSchemaRef_nameChars cs n h

theorem matchSchemaRefAt_hash (s n : List Char) (h : matchSchemaRefAt s = some n) :
    '#' ∈ s := by
  unfold matchSchemaRefAt at h
  cases s with
  | nil => simp [schemaRefLead, stripLead] at h
  | cons c cs =>
    by_cases hc : '#' = c
    · subst hc; simp
    · simp [schemaRefLead, stripLead, hc] at h

theorem execSchemaRef_hash : ∀ (s n : List Char), execSchemaRef s = some n → '#' ∈ s
  | [], n, h => by simp [execSchemaRef] at h
  | c :: cs, n, h => by
    unfold execSchemaRef at h
    cases hm : matchSchemaRefAt (c :: cs) with
    | some m => exact matchSchemaRefAt_hash _ _ hm
    | none =>
      simp only [hm] at h
      exact List.mem_cons_of_mem _ (execSchemaRef_hash cs n h)

/-- A placeholder holds no `#`, so the pattern does not match it. -/
theorem execSchemaRef_placeholder (n : List Char) (hn : ∀ c ∈ n, isNameChar c = true) :
    execSchemaRef ("\x7b\x7bmodel: " ++ String.mk n ++ "\x7d\x7d").data = none := by
  cases h : execSchemaRef ("\x7b\x7bmodel: " ++ String.mk n ++ "\x7d\x7d").data with
  | none => rfl
  | some m =>
    exfalso
    have hh := execSchemaRef_hash _ _ h
    simp only [String.data_append, List.mem_append] at hh
    rcases hh with (hh | hh) | hh
    · revert hh; decide
    · have := hn _ hh; revert this; decide
    · revert hh; decide

/-! ## The Reference Resolver -/

theorem replaceRefValue_fix (v : JVal) :
    replaceRefValue (replaceRefValue v) = replaceRefValue v := by
  unfold replaceRefValue
  cases he : execSchemaRef (toStr v).data with
  | some n =>
    have := execSchemaRef_placeholder n (execSchemaRef_nameChars _ _ he)
    simp only [placeholder, toStr, this]
  | none => simp only [he]

theorem replaceRefs_isObjectType (v : JVal) :
    (replaceRefs v).isObjectType = v.isObjectType := by
  cases v <;> rfl

mutual
theorem replaceRefs_fix : ∀ t : JVal, replaceRefs (replaceRefs t) = replaceRefs t
  | .undef => rfl
  | .null => rfl
  | .bool _ => rfl
  | .num _ => rfl
  | .str _ => rfl
  | .arr xs => by simp only [replaceRefs, replaceRefsElems_fix xs]
  | .obj kvs => by simp only [replaceRefs, replaceRefsEntries_fix kvs]
theorem replaceRefsEntries_fix : ∀ kvs : List (String × JVal),
    replaceRefsEntries (replaceRefsEntries kvs) = replaceRefsEntries kvs
  | [] => rfl
  | (k, v) :: rest => by
    by_cases hk : k = "$ref"
    · simp [replaceRefsEntries, hk, replaceRefValue_fix v, replaceRefsEntries_fix rest]
    · by_cases ho : v.isObjectType = true
      · simp [replaceRefsEntries, hk, ho, replaceRefs_isObjectType, replaceRefs_fix v,
          replaceRefsEntries_fix rest]
      · simp [replaceRefsEntries, hk, ho, replaceRefsEntries_fix rest]
theorem replaceRefsElems_fix : ∀ xs : List JVal,
    replaceRefsElems (replaceRefsElems xs) = replaceRefsElems xs
  | [] => rfl
  | v :: rest => by
    by_cases ho : v.isObjectType = true
    · simp [replaceRefsElems, ho, replaceRefs_isObjectType, replaceRefs_fix v,
        replaceRefsElems_fix rest]
    · simp [replaceRefsElems, ho, replaceRefsElems_fix rest]
end

/-- C1. Running the Reference Resolver on a tree it has already resolved changes
nothing: resolving twice gives the tree that resolving once gives. -/
theorem replaceOpenAPIRefs_idempotent (t : JVal) :
    replaceOpenAPIRefs (replaceOpenAPIRefs t) = replaceOpenAPIRefs t :=
  replaceRefs_fix t

/-- C2. On the pointers `#/components/schemas/Foo.Bar` and
`#/components/schemas/A/properties/b` the resolver writes the placeholders of
`Foo` and of `A`, which are not the placeholders of the last path segments
`Foo.Bar` and `b`. -/
theorem replaceOpenAPIRefs_not_last_segment :
    replaceOpenAPIRefs (.obj [("$ref", .str "#/components/schemas/Foo.Bar")])
        = .obj [("$ref", .str "\x7b\x7bmodel: Foo\x7d\x7d")]
      ∧ lastPathSegment "#/components/schemas/Foo.Bar".data = "Foo.Bar".data
      ∧ replaceOpenAPIRefs (.obj [("$ref", .str "#/components/schemas/A/properties/b")])
        = .obj [("$ref", .str "\x7b\x7bmodel: A\x7d\x7d")]
      ∧ lastPathSegment "#/components/schemas/A/properties/b".data = "b".data := by
  decide

theorem sameRef_replaceRefValue (v : JVal) : sameRef v (replaceRefValue v) = true := by
  unfold sameRef replaceRefValue
  cases execSchemaRef (toStr v).data <;> simp

theorem sameFrame_leaf (v : JVal) (h : v.isObjectType ≠ true) : sameFrame v v = true := by
  cases v <;> simp [sameFrame, isObjectType] at h ⊢

mutual
theorem sameFrame_replaceRefs : ∀ t : JVal, sameFrame t (replaceRefs t) = true
  | .undef => by simp [sameFrame, replaceRefs]
  | .null => by simp [sameFrame, replaceRefs]
  | .bool _ => by simp [sameFrame, replaceRefs]
  | .num _ => by simp [sameFrame, replaceRefs]
  | .str _ => by simp [sameFrame, replaceRefs]
  | .arr xs => by simpa [sameFrame, replaceRefs] using sameFrameElems_replaceRefs xs
  | .obj kvs => by simpa [sameFrame, replaceRefs] using sameFrameEntries_replaceRefs kvs
theorem sameFrameEntries_replaceRefs : ∀ kvs : List (String × JVal),
    sameFrameEntries kvs (replaceRefsEntries kvs) = true
  | [] => by simp [sameFrameEntries, replaceRefsEntries]
  | (k, v) :: rest => by
    by_cases hk : k = "$ref"
    · simp [sameFrameEntries, replaceRefsEntries, hk, sameRef_replaceRefValue v,
        sameFrameEntries_replaceRefs rest]
    · by_cases ho : v.isObjectType = true
      · simp [sameFrameEntries, replaceRefsEntries, hk, ho, sameFrame_replaceRefs v,
          sameFrameEntries_replaceRefs rest]
      · simp [sameFrameEntries, replaceRefsEntries, hk, ho, sameFrame_leaf v ho,
          sameFrameEntries_replaceRefs rest]
theorem sameFrameElems_replaceRefs : ∀ xs : List JVal,
    sameFrameElems xs (replaceRefsElems xs) = true
  | [] => by simp [sameFrameElems, replaceRefsElems]
  | v :: rest => by
    by_cases ho : v.isObjectType = true
    · simp [sameFrameElems, replaceRefsElems, ho, sameFrame_replaceRefs v,
        sameFrameElems_replaceRefs rest]
    · simp [sameFrameElems, replaceRefsElems, ho, sameFrame_leaf v ho,
        sameFrameElems_replaceRefs rest]
end

/-- C3, as the code has it. The resolver changes a tree only at values stored
under a key equal to `$ref` whose string conversion matches the pattern: every
object keeps its keys, every array its length, every leaf its value, every
`$ref` value whose conversion does not match stays as it is, and every `$ref`
value whose conversion matches becomes the placeholder of the captured name.
The resolver is total: no pointer shape raises an error. -/
theorem replaceOpenAPIRefs_frame (t : JVal) : sameFrame t (replaceOpenAPIRefs t) = true :=
  sameFrame_replaceRefs t

/-- C3, as stated, fails: a `$ref` value that is not a string, the one-element
array `['#/components/schemas/Foo']`, is changed, since `exec` converts it to the
string `#/components/schemas/Foo`. -/
theorem replaceOpenAPIRefs_rewrites_array :
    replaceOpenAPIRefs (.obj [("$ref", .arr [.str "#/components/schemas/Foo"])])
      = .obj [("$ref", .str "\x7b\x7bmodel: Foo\x7d\x7d")] := by
  decide

/-! ## The Model Extractor -/

theorem getProp_description_of_schema (param schema : JVal)
    (hschema : getProp param "schema" = some schema) :
    ∃ d, getProp param "description" = some d := by
  cases param <;> simp [getProp] at hschema ⊢

/-- The inline branch of the extractor. -/
theorem extractModelDefinition_inline (param : JVal) (kvs : List (String × JVal))
    (name : String) (models : List JVal) (d : JVal)
    (hschema : getProp param "schema" = some (.obj kvs))
    (hnoref : lookupKey "$ref" kvs = none) (hd : getProp param "description" = some d) :
    extractModelDefinition param name models =
      some ⟨.str name, putBack param "schema" (replaceOpenAPIRefs (.obj kvs)),
        models ++ [modelDefinition name d (replaceOpenAPIRefs (.obj kvs))]⟩ := by
  simp [extractModelDefinition, hschema, getProp_obj, hnoref, hd, truthy]

/-- C4. For an input whose schema is an object without a `$ref` entry the
extractor appends exactly one Model Definition after the entries already there,
with `name` the candidate name, `description` the description of the input,
`contentType` the string `application/json` and `schema` the schema of the input
as the Reference Resolver leaves it, and it returns the candidate name; the
schema of the input is left resolved. -/
theorem extractOpenAPIModel_inline (param : JVal) (kvs : List (String × JVal)) (name : String)
    (models : List JVal) (hschema : getProp param "schema" = some (.obj kvs))
    (hnoref : lookupKey "$ref" kvs = none) :
    ∃ description, getProp param "description" = some description ∧
      extractOpenAPIModel param name models =
        some ⟨.str name, putBack param "schema" (replaceOpenAPIRefs (.obj kvs)),
          models ++ [modelDefinition name description (replaceOpenAPIRefs (.obj kvs))]⟩ := by
  obtain ⟨d, hd⟩ := getProp_description_of_schema param _ hschema
  exact ⟨d, hd, extractModelDefinition_inline param kvs name models d hschema hnoref hd⟩

theorem extractOpenAPIModel_inline_witness :
    ∃ description, getProp widgetListParam "description" = some description ∧
      extractOpenAPIModel widgetListParam "listWidgetsResponse"
          [modelDefinition "Widget" .undef widgetSchema] =
        some ⟨.str "listWidgetsResponse",
          putBack widgetListParam "schema" (replaceOpenAPIRefs (.obj [("type", .str "array"),
            ("items", .obj [("$ref", .str "#/components/schemas/Widget")])])),
          [modelDefinition "Widget" .undef widgetSchema] ++
            [modelDefinition "listWidgetsResponse" description
              (replaceOpenAPIRefs (.obj [("type", .str "array"),
                ("items", .obj [("$ref", .str "#/components/schemas/Widget")])]))]⟩ :=
  extractOpenAPIModel_inline widgetListParam _ "listWidgetsResponse"
    [modelDefinition "Widget" .undef widgetSchema] (by rfl) (by decide)

/-- C5. On a schema that is the reference `#/components/schemas/Foo.Bar` the
extractor returns `Foo`, not the referenced name `Foo.Bar`; on a schema that is
the reference `./schemas.yaml#/Widget` it returns `undefined`.  In both cases
no Model Definition is appended. -/
theorem extractOpenAPIModel_ref_not_name (models : List JVal) :
    extractOpenAPIModel (.obj [("schema", .obj [("$ref", .str "#/components/schemas/Foo.Bar")])])
        "getFooResponse" models
      = some ⟨.str "Foo",
          .obj [("schema", .obj [("$ref", .str "#/components/schemas/Foo.Bar")])], models⟩
    ∧ extractOpenAPIModel (.obj [("schema", .obj [("$ref", .str "./schemas.yaml#/Widget")])])
        "getFooResponse" models
      = some ⟨.undef, .obj [("schema", .obj [("$ref", .str "./schemas.yaml#/Widget")])], models⟩ := by
  constructor <;> rfl

/-- A schema with a truthy `$ref` leaves the collection and the input as they are. -/
theorem extractModelDefinition_ref (param schema ref : JVal) (name : String)
    (models : List JVal) (r : Extraction) (hschema : getProp param "schema" = some schema)
    (href : getProp schema "$ref" = some ref) (ht : ref.truthy = true)
    (h : extractModelDefinition param name models = some r) :
    r.models = models ∧ r.param = param := by
  simp only [extractModelDefinition, hschema, href, ht, if_true] at h
  cases he : execSchemaRef (toStr ref).data with
  | none =>
    simp only [he, Option.some.injEq] at h
    subst h
    exact ⟨rfl, rfl⟩
  | some m =>
    simp only [he, Option.some.injEq] at h
    subst h
    exact ⟨rfl, rfl⟩

theorem hasModelNamed_append (n : String) (models : List JVal) (d s : JVal) :
    hasModelNamed n (models ++ [modelDefinition n d s]) = true := by
  simp [hasModelNamed, modelDefinition, getProp, ownEntries, lookupKey]

/-- C6, as the code has it. When the extractor returns a name, either that name
is the candidate name and a Model Definition of that name has just been appended
to `models`, so that the returned name identifies a definition of the collection
after the call, or the name is the one captured from the `$ref` of the schema and
the input and `models` are left as they were. -/
theorem extractOpenAPIModel_returned_name (param : JVal) (name : String) (models : List JVal)
    (r : Extraction) (h : extractOpenAPIModel param name models = some r)
    (hret : r.ret ≠ .undef) :
    (r.ret = .str name ∧ hasModelNamed name r.models = true ∧
        ∃ d s, r.models = models ++ [modelDefinition name d s])
      ∨ (r.models = models ∧ r.param = param ∧
        ∃ schema ref m, getProp param "schema" = some schema ∧ getProp schema "$ref" = some ref ∧
          execSchemaRef (toStr ref).data = some m ∧ r.ret = .str (String.mk m)) := by
  unfold extractOpenAPIModel extractModelDefinition at h
  cases hs : getProp param "schema" with
  | none => simp [hs] at h
  | some schema =>
    simp only [hs] at h
    cases hr : getProp schema "$ref" with
    | none => simp [hr] at h
    | some ref =>
      simp only [hr] at h
      by_cases ht : ref.truthy = true
      · simp only [ht, if_true] at h
        cases he : execSchemaRef (toStr ref).data with
        | none =>
          simp only [he, Option.some.injEq] at h
          subst h
          exact absurd rfl hret
        | some m =>
          simp only [he, Option.some.injEq] at h
          subst h
          exact Or.inr ⟨rfl, rfl, schema, ref, m, rfl, hr, he, rfl⟩
      · simp only [ht] at h
        cases hd : getProp param "description" with
        | none => simp [hd] at h
        | some d =>
          simp [hd] at h
          subst h
          exact Or.inl ⟨rfl, hasModelNamed_append _ _ _ _, d, _, rfl⟩

theorem extractOpenAPIModel_returned_name_witness :
    ((Extraction.mk (.str "Widget") widgetRefParam
          [modelDefinition "Widget" .undef widgetSchema]).ret = .str "getWidgetResponse" ∧
        hasModelNamed "getWidgetResponse" (Extraction.mk (.str "Widget") widgetRefParam
          [modelDefinition "Widget" .undef widgetSchema]).models = true ∧
        ∃ d s, (Extraction.mk (.str "Widget") widgetRefParam
            [modelDefinition "Widget" .undef widgetSchema]).models
          = [modelDefinition "Widget" .undef widgetSchema]
            ++ [modelDefinition "getWidgetResponse" d s])
      ∨ ((Extraction.mk (.str "Widget") widgetRefParam
            [modelDefinition "Widget" .undef widgetSchema]).models
          = [modelDefinition "Widget" .undef widgetSchema] ∧
        (Extraction.mk (.str "Widget") widgetRefParam
            [modelDefinition "Widget" .undef widgetSchema]).param = widgetRefParam ∧
        ∃ schema ref m, getProp widgetRefParam "schema" = some schema ∧
          getProp schema "$ref" = some ref ∧ execSchemaRef (toStr ref).data = some m ∧
          (Extraction.mk (.str "Widget") widgetRefParam
            [modelDefinition "Widget" .undef widgetSchema]).ret = .str (String.mk m)) :=
  extractOpenAPIModel_returned_name widgetRefParam "getWidgetResponse"
    [modelDefinition "Widget" .undef widgetSchema] _ (by rfl) (by decide)

/-- C6, as stated, fails: with an empty collection the extractor returns the
name `Widget` of the reference and leaves the collection empty, so the returned
name identifies no Model Definition of `models` after the call. -/
theorem extractOpenAPIModel_name_absent :
    extractOpenAPIModel widgetRefParam "getWidgetResponse" []
      = some ⟨.str "Widget", widgetRefParam, []⟩
    ∧ hasModelNamed "Widget" [] = false := by
  decide



/-! ## End to end: the `Widget` specification -/

/-- C7. Component dialect, end to end: for the specification `widgetApi` (one
schema `Widget` with two string properties, one path `/widgets` whose method
`get` answers `200` with JSON content referring to `#/components/schemas/Widget`),
validation returning the same structure, and one function with the single event
of path `widgets` and method `get`, normalisation yields a model collection with
exactly one Model Definition, named `Widget`, logs nothing, and stores on the
event one Documentation Record whose `methodResponses` holds the entry of status
code `200` with `responseModels` mapping `application/json` to `Widget`. -/
theorem normalizeOpenAPI_widget (functionName : String) :
    normalizeOpenAPI widgetApi widgetApi
        [⟨functionName, some [⟨some ⟨"widgets", "get", none⟩⟩]⟩]
      = some ⟨widgetApi, widgetApi, [modelDefinition "Widget" .undef widgetSchema],
          [⟨functionName, some [⟨some ⟨"widgets", "get",
            some (.obj [("requestHeaders", .arr []), ("pathParams", .arr []),
              ("queryParams", .arr []), ("requestModels", .obj []),
              ("description", .undef), ("summary", .undef),
              ("methodResponses", .arr [.obj [("statusCode", .str "200"),
                ("responseModels", .obj [("application/json", .str "Widget")])]])])⟩⟩]⟩],
          []⟩ := by
  rfl


theorem lookupKey_replaceEntry (k l : String) (x : JVal) (kvs : List (String × JVal)) :
    lookupKey k (replaceEntry l x kvs)
      = if k = l then (lookupKey k kvs).map (fun _ => x) else lookupKey k kvs := by
  induction kvs with
  | nil => by_cases h : k = l <;> simp [replaceEntry, lookupKey, h]
  | cons e rest ih =>
    obtain ⟨m, v⟩ := e
    by_cases hm : m = l
    · by_cases h : k = l
      · simp [replaceEntry, lookupKey, hm, h]
      · have h2 : ¬ l = k := fun e => h e.symm
        simp [replaceEntry, lookupKey, hm, h, h2]
    · by_cases hk : m = k
      · have : ¬ k = l := fun e => hm (hk.trans e)
        simp [replaceEntry, lookupKey, hm, hk, this]
      · simp [replaceEntry, lookupKey, hm, hk, ih]

/-- A truthy property of an object is one of its entries. -/
theorem lookupKey_of_truthy (kvs : List (String × JVal)) (k : String) (v : JVal)
    (h : getProp (.obj kvs) k = some v) (ht : v.truthy = true) : lookupKey k kvs = some v := by
  rw [getProp_obj] at h
  cases hl : lookupKey k kvs with
  | none =>
    rw [hl] at h
    simp at h
    subst h
    simp [truthy] at ht
  | some w =>
    rw [hl] at h
    simpa using h

/-- Writing a method back under a path that is there keeps an absent path absent. -/
theorem pathAbsent_setIn (q p m : String) (paths path x : JVal)
    (habs : pathAbsent q paths = true) (hp : getProp paths p = some path)
    (ht : path.truthy = true) : pathAbsent q (setIn paths [p, m] x) = true := by
  cases paths <;> simp [pathAbsent] at habs
  rename_i kvs
  have hl := lookupKey_of_truthy kvs p path hp ht
  have hne : q ≠ p := by
    intro e
    subst e
    rw [habs] at hl
    cases hl
  simp [setIn, hp, putBack, pathAbsent, lookupKey_replaceEntry, hne, habs]

/-- Writing a method back where it was read keeps an absent method absent. -/
theorem methodAbsent_setIn (p0 m0 p m : String) (paths path method x : JVal)
    (habs : methodAbsent p0 m0 paths = true) (hp : getProp paths p = some path)
    (ht : path.truthy = true) (hm : getProp path m = some method)
    (hmt : method.truthy = true) : methodAbsent p0 m0 (setIn paths [p, m] x) = true := by
  cases paths <;> simp [methodAbsent] at habs
  rename_i kvs
  have hl := lookupKey_of_truthy kvs p path hp ht
  cases hl0 : lookupKey p0 kvs with
  | none => simp [hl0] at habs
  | some v0 =>
    cases v0 <;> simp [hl0] at habs
    rename_i mkvs
    by_cases hpe : p0 = p
    · subst hpe
      rw [hl0] at hl
      cases hl
      have hlm := lookupKey_of_truthy mkvs m method hm hmt
      have hne : m0 ≠ m := by
        intro e
        subst e
        rw [habs] at hlm
        cases hlm
      simp [setIn, hp, hm, putBack, methodAbsent, lookupKey_replaceEntry, hne, habs, hl0]
    · simp [setIn, hp, putBack, methodAbsent, lookupKey_replaceEntry, hpe, hl0, habs]


/-! ## The component-dialect walk: what one event does to the state -/

theorem openapiMethod_state (fn : String) (st st1 : NormState) (h : HttpEvent) (method : JVal)
    (ev1 : Event) (hrun : openapiMethod fn st h method = some (st1, ev1)) :
    (∃ x, st1.paths = setIn st.paths ["/" ++ h.path, h.method] x) ∧ st1.logs = st.logs := by
  unfold openapiMethod at hrun
  cases hd : getProp method "description" with
  | none => simp [hd] at hrun
  | some d =>
    cases hs : getProp method "summary" with
    | none => simp [hd, hs] at hrun
    | some s =>
      simp only [hd, hs] at hrun
      cases h1 : openapiParameters fn h method ⟨[], [], [], [], d, s, none⟩ st.models st.parsePath with
      | none => simp [h1] at hrun
      | some r1 =>
        obtain ⟨doc1, models1, parsePath1⟩ := r1
        simp only [h1] at hrun
        cases h2 : openapiRequestBody fn method doc1 models1 with
        | none => simp [h2] at hrun
        | some r2 =>
          obtain ⟨doc2, models2, method2⟩ := r2
          simp only [h2] at hrun
          cases h3 : openapiResponses fn method2 doc2 models2 with
          | none => simp [h3] at hrun
          | some r3 =>
            obtain ⟨doc3, models3, method3⟩ := r3
            simp only [h3, Option.some.injEq, Prod.mk.injEq] at hrun
            obtain ⟨rfl, _⟩ := hrun
            exact ⟨⟨method3, rfl⟩, rfl⟩

/-- An event of the component-dialect walk either leaves `paths` alone or writes
a method back where it was read, under a path and a method that are there. -/
theorem openapiEvent_paths (fn : String) (st st1 : NormState) (ev ev1 : Event)
    (hrun : openapiEvent fn st ev = some (st1, ev1)) :
    st1.paths = st.paths ∨
      ∃ (h : HttpEvent) (path method x : JVal), getProp st.paths ("/" ++ h.path) = some path ∧ path.truthy = true ∧
        getProp path h.method = some method ∧ method.truthy = true ∧
        st1.paths = setIn st.paths ["/" ++ h.path, h.method] x := by
  unfold openapiEvent at hrun
  cases hh : ev.http with
  | none =>
    simp only [hh, Option.some.injEq, Prod.mk.injEq] at hrun
    exact Or.inl (by rw [← hrun.1])
  | some h =>
    simp only [hh] at hrun
    cases hp : getProp st.paths ("/" ++ h.path) with
    | none => simp [hp] at hrun
    | some path =>
      simp only [hp] at hrun
      by_cases hpt : path.truthy = true
      · simp only [hpt, if_true] at hrun
        cases hm : getProp path h.method with
        | none => simp [hm] at hrun
        | some method =>
          simp only [hm] at hrun
          by_cases hmt : method.truthy = true
          · simp only [hmt, if_true] at hrun
            obtain ⟨⟨x, hx⟩, _⟩ := openapiMethod_state fn st st1 h method ev1 hrun
            exact Or.inr ⟨h, path, method, x, hp, hpt, hm, hmt, hx⟩
          · simp [hmt] at hrun
            exact Or.inl (by rw [← hrun.1])
      · simp [hpt] at hrun
        exact Or.inl (by rw [← hrun.1])

theorem pathAbsent_openapiEvent (q fn : String) (st st1 : NormState) (ev ev1 : Event)
    (habs : pathAbsent q st.paths = true) (hrun : openapiEvent fn st ev = some (st1, ev1)) :
    pathAbsent q st1.paths = true := by
  rcases openapiEvent_paths fn st st1 ev ev1 hrun with h | ⟨h, path, method, x, hp, hpt, _, _, hx⟩
  · rw [h]; exact habs
  · rw [hx]; exact pathAbsent_setIn q _ _ _ path x habs hp hpt

theorem methodAbsent_openapiEvent (p m fn : String) (st st1 : NormState) (ev ev1 : Event)
    (habs : methodAbsent p m st.paths = true) (hrun : openapiEvent fn st ev = some (st1, ev1)) :
    methodAbsent p m st1.paths = true := by
  rcases openapiEvent_paths fn st st1 ev ev1 hrun with h | ⟨h, path, method, x, hp, hpt, hm, hmt, hx⟩
  · rw [h]; exact habs
  · rw [hx]; exact methodAbsent_setIn p m _ _ _ path method x habs hp hpt hm hmt

theorem pathAbsent_openapiEvents (q fn : String) : ∀ (es : List Event) (st st1 : NormState)
    (es1 : List Event), pathAbsent q st.paths = true →
    openapiEvents fn st es = some (st1, es1) → pathAbsent q st1.paths = true
  | [], st, st1, es1, habs, hrun => by
    simp only [openapiEvents, Option.some.injEq, Prod.mk.injEq] at hrun
    rw [← hrun.1]; exact habs
  | e :: rest, st, st1, es1, habs, hrun => by
    unfold openapiEvents at hrun
    cases h1 : openapiEvent fn st e with
    | none => simp [h1] at hrun
    | some r1 =>
      obtain ⟨st2, e1⟩ := r1
      simp only [h1] at hrun
      cases h2 : openapiEvents fn st2 rest with
      | none => simp [h2] at hrun
      | some r2 =>
        obtain ⟨st3, rest1⟩ := r2
        simp only [h2, Option.some.injEq, Prod.mk.injEq] at hrun
        rw [← hrun.1]
        exact pathAbsent_openapiEvents q fn rest st2 st3 rest1
          (pathAbsent_openapiEvent q fn st st2 e e1 habs h1) h2

theorem methodAbsent_openapiEvents (p m fn : String) : ∀ (es : List Event) (st st1 : NormState)
    (es1 : List Event), methodAbsent p m st.paths = true →
    openapiEvents fn st es = some (st1, es1) → methodAbsent p m st1.paths = true
  | [], st, st1, es1, habs, hrun => by
    simp only [openapiEvents, Option.some.injEq, Prod.mk.injEq] at hrun
    rw [← hrun.1]; exact habs
  | e :: rest, st, st1, es1, habs, hrun => by
    unfold openapiEvents at hrun
    cases h1 : openapiEvent fn st e with
    | none => simp [h1] at hrun
    | some r1 =>
      obtain ⟨st2, e1⟩ := r1
      simp only [h1] at hrun
      cases h2 : openapiEvents fn st2 rest with
      | none => simp [h2] at hrun
      | some r2 =>
        obtain ⟨st3, rest1⟩ := r2
        simp only [h2, Option.some.injEq, Prod.mk.injEq] at hrun
        rw [← hrun.1]
        exact methodAbsent_openapiEvents p m fn rest st2 st3 rest1
          (methodAbsent_openapiEvent p m fn st st2 e e1 habs h1) h2

/-- An event whose path is absent leaves the state and the event as they are. -/
theorem openapiEvent_pathAbsent (fn : String) (st : NormState) (h : HttpEvent)
    (habs : pathAbsent ("/" ++ h.path) st.paths = true) :
    openapiEvent fn st ⟨some h⟩ = some (st, ⟨some h⟩) := by
  cases hp : st.paths <;> simp [hp, pathAbsent] at habs
  simp [openapiEvent, hp, getProp_obj, habs, truthy]

theorem openapiEvents_cons (fn : String) (st : NormState) (e : Event) (rest : List Event) :
    openapiEvents fn st (e :: rest)
      = (openapiEvent fn st e).bind fun r =>
          (openapiEvents fn r.1 rest).map fun r2 => (r2.1, r.2 :: r2.2) := by
  rw [openapiEvents]
  cases openapiEvent fn st e with
  | none => rfl
  | some r1 =>
    obtain ⟨st1, e1⟩ := r1
    simp only [Option.some_bind]
    cases openapiEvents fn st1 rest with
    | none => rfl
    | some r2 => rfl

theorem openapiEvents_insert (fn : String) (h : HttpEvent) : ∀ (es : List Event) (j : Nat)
    (st : NormState), pathAbsent ("/" ++ h.path) st.paths = true →
    openapiEvents fn st (es.take j ++ ⟨some h⟩ :: es.drop j)
      = (openapiEvents fn st es).map fun r => (r.1, r.2.take j ++ ⟨some h⟩ :: r.2.drop j)
  | [], j, st, habs => by
    simp [openapiEvents, openapiEvent_pathAbsent fn st h habs]
  | e :: rest, 0, st, habs => by
    simp only [List.take_zero, List.nil_append, List.drop_zero]
    rw [openapiEvents_cons, openapiEvent_pathAbsent fn st h habs]
    rfl
  | e :: rest, j + 1, st, habs => by
    simp only [List.take_succ_cons, List.cons_append, List.drop_succ_cons]
    rw [openapiEvents_cons, openapiEvents_cons fn st e rest]
    cases h1 : openapiEvent fn st e with
    | none => rfl
    | some r1 =>
      obtain ⟨st2, e1⟩ := r1
      simp only [Option.some_bind]
      rw [openapiEvents_insert fn h rest j st2 (pathAbsent_openapiEvent _ fn st st2 e e1 habs h1)]
      cases openapiEvents fn st2 rest with
      | none => rfl
      | some r2 => rfl

theorem pathAbsent_openapiFunctions (q : String) : ∀ (fs : List FunctionDecl)
    (st st1 : NormState) (fs1 : List FunctionDecl), pathAbsent q st.paths = true →
    openapiFunctions st fs = some (st1, fs1) → pathAbsent q st1.paths = true
  | [], st, st1, fs1, habs, hrun => by
    simp only [openapiFunctions, Option.some.injEq, Prod.mk.injEq] at hrun
    rw [← hrun.1]; exact habs
  | f :: rest, st, st1, fs1, habs, hrun => by
    rw [openapiFunctions] at hrun
    cases he : f.events with
    | none =>
      simp only [he, Option.map_eq_some'] at hrun
      obtain ⟨r, hr, hx⟩ := hrun
      obtain ⟨st2, fs2⟩ := r
      simp only [Prod.mk.injEq] at hx
      rw [← hx.1]
      exact pathAbsent_openapiFunctions q rest st st2 fs2 habs hr
    | some es =>
      simp only [he] at hrun
      cases h1 : openapiEvents f.name st es with
      | none => simp [h1] at hrun
      | some r1 =>
        obtain ⟨st2, es1⟩ := r1
        simp only [h1, Option.map_eq_some'] at hrun
        obtain ⟨r, hr, hx⟩ := hrun
        obtain ⟨st3, fs3⟩ := r
        simp only [Prod.mk.injEq] at hx
        rw [← hx.1]
        exact pathAbsent_openapiFunctions q rest st2 st3 fs3
          (pathAbsent_openapiEvents q f.name es st st2 es1 habs h1) hr

theorem openapiFunctions_insert (h : HttpEvent) (j : Nat) : ∀ (fs : List FunctionDecl) (i : Nat)
    (st : NormState), pathAbsent ("/" ++ h.path) st.paths = true →
    openapiFunctions st (insertEvent ⟨some h⟩ j i fs)
      = (openapiFunctions st fs).map fun r => (r.1, insertEvent ⟨some h⟩ j i r.2)
  | [], i, st, habs => by
    cases i <;> simp [insertEvent, openapiFunctions]
  | f :: rest, 0, st, habs => by
    obtain ⟨name, events⟩ := f
    cases events with
    | none =>
      simp only [insertEvent, Option.map_none', openapiFunctions]
      cases openapiFunctions st rest with
      | none => rfl
      | some r => rfl
    | some es =>
      simp only [insertEvent, Option.map_some', openapiFunctions]
      rw [openapiEvents_insert name h es j st habs]
      cases openapiEvents name st es with
      | none => rfl
      | some r1 =>
        obtain ⟨st2, es1⟩ := r1
        simp only [Option.map_some']
        cases openapiFunctions st2 rest with
        | none => rfl
        | some r => rfl
  | f :: rest, i + 1, st, habs => by
    obtain ⟨name, events⟩ := f
    cases events with
    | none =>
      simp only [insertEvent, openapiFunctions]
      rw [openapiFunctions_insert h j rest i st habs]
      cases openapiFunctions st rest with
      | none => rfl
      | some r => rfl
    | some es =>
      simp only [insertEvent, openapiFunctions]
      cases h1 : openapiEvents name st es with
      | none => rfl
      | some r1 =>
        obtain ⟨st2, es1⟩ := r1
        simp only []
        rw [openapiFunctions_insert h j rest i st2
          (pathAbsent_openapiEvents _ name es st st2 es1 habs h1)]
        cases openapiFunctions st2 rest with
        | none => rfl
        | some r => rfl

/-- Component dialect: normalising with an event of unknown path is normalising
without it and putting the event back as it was. -/
theorem normalizeOpenAPI_insert (api parsedData paths : JVal) (functions : List FunctionDecl)
    (h : HttpEvent) (i j : Nat) (hpaths : getProp api "paths" = some paths)
    (habs : pathAbsent ("/" ++ h.path) paths = true) :
    normalizeOpenAPI api parsedData (insertEvent ⟨some h⟩ j i functions)
      = (normalizeOpenAPI api parsedData functions).map fun r =>
          { r with functions := insertEvent ⟨some h⟩ j i r.functions } := by
  unfold normalizeOpenAPI
  rw [hpaths]
  cases getProp parsedData "components" with
  | none => rfl
  | some components =>
    cases getProp parsedData "paths" with
    | none => rfl
    | some parsePath =>
      simp only []
      cases getProp api "components" with
      | none => rfl
      | some apiComponents =>
        simp only []
        cases getProp apiComponents "schemas" with
        | none => rfl
        | some apiSchemas =>
          simp only []
          cases openapiModels components with
          | none => rfl
          | some models =>
            simp only []
            rw [openapiFunctions_insert h j functions i ⟨paths, parsePath, models, []⟩ habs]
            cases openapiFunctions ⟨paths, parsePath, models, []⟩ functions with
            | none => rfl
            | some r => rfl

/-! ## The legacy walk: what one event does to the state -/

theorem swaggerMethod_state (ops : SwaggerOps) (st st1 : SwaggerState) (h : HttpEvent)
    (method : JVal) (ev1 : Event) (hrun : swaggerMethod ops st h method = some (st1, ev1)) :
    ∃ x, st1.paths = setIn st.paths ["/" ++ h.path, h.method] x := by
  unfold swaggerMethod at hrun
  cases hd : getProp method "description" with
  | none => simp [hd] at hrun
  | some d =>
    cases hs : getProp method "summary" with
    | none => simp [hd, hs] at hrun
    | some s =>
      simp only [hd, hs] at hrun
      cases h1 : swaggerParameters ops method ⟨[], [], [], [], d, s, none⟩ st.models with
      | none => simp [h1] at hrun
      | some r1 =>
        obtain ⟨doc1, models1, method1⟩ := r1
        simp only [h1] at hrun
        cases h2 : swaggerResponses ops method1 doc1 models1 with
        | none => simp [h2] at hrun
        | some r2 =>
          obtain ⟨doc2, models2, method2⟩ := r2
          simp only [h2, Option.some.injEq, Prod.mk.injEq] at hrun
          obtain ⟨rfl, _⟩ := hrun
          exact ⟨method2, rfl⟩

theorem pathAbsent_swaggerEvent (q : String) (ops : SwaggerOps) (st st1 : SwaggerState)
    (ev ev1 : Event) (habs : pathAbsent q st.paths = true)
    (hrun : swaggerEvent ops st ev = some (st1, ev1)) : pathAbsent q st1.paths = true := by
  unfold swaggerEvent at hrun
  cases hh : ev.http with
  | none =>
    simp only [hh, Option.some.injEq, Prod.mk.injEq] at hrun
    rw [← hrun.1]; exact habs
  | some h =>
    simp only [hh] at hrun
    cases hp : getProp st.paths ("/" ++ h.path) with
    | none => simp [hp] at hrun
    | some path =>
      simp only [hp] at hrun
      by_cases hpt : path.truthy = true
      · simp only [hpt, if_true] at hrun
        cases hm : getProp path h.method with
        | none => simp [hm] at hrun
        | some method =>
          simp only [hm] at hrun
          obtain ⟨x, hx⟩ := swaggerMethod_state ops st st1 h method ev1 hrun
          rw [hx]
          exact pathAbsent_setIn q _ _ _ path x habs hp hpt
      · simp [hpt] at hrun
        rw [← hrun.1]; exact habs

theorem swaggerEvents_cons (ops : SwaggerOps) (st : SwaggerState) (e : Event)
    (rest : List Event) :
    swaggerEvents ops st (e :: rest)
      = (swaggerEvent ops st e).bind fun r =>
          (swaggerEvents ops r.1 rest).map fun r2 => (r2.1, r.2 :: r2.2) := by
  rw [swaggerEvents]
  cases swaggerEvent ops st e with
  | none => rfl
  | some r1 =>
    obtain ⟨st1, e1⟩ := r1
    simp only [Option.some_bind]
    cases swaggerEvents ops st1 rest with
    | none => rfl
    | some r2 => rfl

theorem pathAbsent_swaggerEvents (q : String) (ops : SwaggerOps) : ∀ (es : List Event)
    (st st1 : SwaggerState) (es1 : List Event), pathAbsent q st.paths = true →
    swaggerEvents ops st es = some (st1, es1) → pathAbsent q st1.paths = true
  | [], st, st1, es1, habs, hrun => by
    simp only [swaggerEvents, Option.some.injEq, Prod.mk.injEq] at hrun
    rw [← hrun.1]; exact habs
  | e :: rest, st, st1, es1, habs, hrun => by
    rw [swaggerEvents_cons] at hrun
    cases h1 : swaggerEvent ops st e with
    | none => simp [h1] at hrun
    | some r1 =>
      obtain ⟨st2, e1⟩ := r1
      simp only [h1, Option.some_bind, Option.map_eq_some'] at hrun
      obtain ⟨r, hr, hx⟩ := hrun
      obtain ⟨st3, rest1⟩ := r
      simp only [Prod.mk.injEq] at hx
      rw [← hx.1]
      exact pathAbsent_swaggerEvents q ops rest st2 st3 rest1
        (pathAbsent_swaggerEvent q ops st st2 e e1 habs h1) hr

/-- An event whose path is absent leaves the legacy state and the event as they are. -/
theorem swaggerEvent_pathAbsent (ops : SwaggerOps) (st : SwaggerState) (h : HttpEvent)
    (habs : pathAbsent ("/" ++ h.path) st.paths = true) :
    swaggerEvent ops st ⟨some h⟩ = some (st, ⟨some h⟩) := by
  cases hp : st.paths <;> simp [hp, pathAbsent] at habs
  simp [swaggerEvent, hp, getProp_obj, habs, truthy]

theorem swaggerEvents_insert (ops : SwaggerOps) (h : HttpEvent) : ∀ (es : List Event) (j : Nat)
    (st : SwaggerState), pathAbsent ("/" ++ h.path) st.paths = true →
    swaggerEvents ops st (es.take j ++ ⟨some h⟩ :: es.drop j)
      = (swaggerEvents ops st es).map fun r => (r.1, r.2.take j ++ ⟨some h⟩ :: r.2.drop j)
  | [], j, st, habs => by
    simp [swaggerEvents, swaggerEvent_pathAbsent ops st h habs]
  | e :: rest, 0, st, habs => by
    simp only [List.take_zero, List.nil_append, List.drop_zero]
    rw [swaggerEvents_cons, swaggerEvent_pathAbsent ops st h habs]
    rfl
  | e :: rest, j + 1, st, habs => by
    simp only [List.take_succ_cons, List.cons_append, List.drop_succ_cons]
    rw [swaggerEvents_cons, swaggerEvents_cons ops st e rest]
    cases h1 : swaggerEvent ops st e with
    | none => rfl
    | some r1 =>
      obtain ⟨st2, e1⟩ := r1
      simp only [Option.some_bind]
      rw [swaggerEvents_insert ops h rest j st2 (pathAbsent_swaggerEvent _ ops st st2 e e1 habs h1)]
      cases swaggerEvents ops st2 rest with
      | none => rfl
      | some r2 => rfl

theorem swaggerFunctions_insert (ops : SwaggerOps) (h : HttpEvent) (j : Nat) :
    ∀ (fs : List FunctionDecl) (i : Nat) (st : SwaggerState),
    pathAbsent ("/" ++ h.path) st.paths = true →
    swaggerFunctions ops st (insertEvent ⟨some h⟩ j i fs)
      = (swaggerFunctions ops st fs).map fun r => (r.1, insertEvent ⟨some h⟩ j i r.2)
  | [], i, st, habs => by
    cases i <;> simp [insertEvent, swaggerFunctions]
  | f :: rest, 0, st, habs => by
    obtain ⟨name, events⟩ := f
    cases events with
    | none =>
      simp only [insertEvent, Option.map_none', swaggerFunctions]
      cases swaggerFunctions ops st rest with
      | none => rfl
      | some r => rfl
    | some es =>
      simp only [insertEvent, Option.map_some', swaggerFunctions]
      rw [swaggerEvents_insert ops h es j st habs]
      cases swaggerEvents ops st es with
      | none => rfl
      | some r1 =>
        obtain ⟨st2, es1⟩ := r1
        simp only [Option.map_some']
        cases swaggerFunctions ops st2 rest with
        | none => rfl
        | some r => rfl
  | f :: rest, i + 1, st, habs => by
    obtain ⟨name, events⟩ := f
    cases events with
    | none =>
      simp only [insertEvent, swaggerFunctions]
      rw [swaggerFunctions_insert ops h j rest i st habs]
      cases swaggerFunctions ops st rest with
      | none => rfl
      | some r => rfl
    | some es =>
      simp only [insertEvent, swaggerFunctions]
      cases h1 : swaggerEvents ops st es with
      | none => rfl
      | some r1 =>
        obtain ⟨st2, es1⟩ := r1
        simp only []
        rw [swaggerFunctions_insert ops h j rest i st2
          (pathAbsent_swaggerEvents _ ops es st st2 es1 habs h1)]
        cases swaggerFunctions ops st2 rest with
        | none => rfl
        | some r => rfl

/-- Legacy dialect: normalising with an event of unknown path is normalising
without it and putting the event back as it was. -/
theorem normalizeSwagger_insert (ops : SwaggerOps) (documentation paths : JVal)
    (functions : List FunctionDecl) (h : HttpEvent) (i j : Nat)
    (hpaths : getProp documentation "paths" = some paths)
    (habs : pathAbsent ("/" ++ h.path) paths = true) :
    normalizeSwagger ops documentation (insertEvent ⟨some h⟩ j i functions)
      = (normalizeSwagger ops documentation functions).map fun r =>
          { r with functions := insertEvent ⟨some h⟩ j i r.functions } := by
  unfold normalizeSwagger
  rw [hpaths]
  cases getProp documentation "swagger" with
  | none => rfl
  | some swagger =>
    simp only []
    by_cases hsw : swagger.truthy = true
    · simp only [hsw, if_true]
      cases getProp documentation "definitions" with
      | none => rfl
      | some definitions =>
        simp only []
        cases ops.replaceSwaggerDefinitions definitions with
        | none => rfl
        | some swaggerDefs =>
          simp only []
          cases (if swaggerDefs.truthy = true then schemaModels (ownEntries swaggerDefs)
              else some []) with
          | none => rfl
          | some models =>
            simp only []
            rw [swaggerFunctions_insert ops h j functions i ⟨paths, models⟩ habs]
            cases swaggerFunctions ops ⟨paths, models⟩ functions with
            | none => rfl
            | some r => rfl
    · simp [hsw]

/-- C9. In both dialects an HTTP event whose path `/` + `event.path` is not a
key of the `paths` of the specification is skipped in silence: normalising the
declared functions with such an event among them, at any place, gives what
normalising them without it gives (the same messages, the same models, the same
documentation on every other event) with the event put back as it was, so
without a `documentation` field if it had none. -/
theorem normalize_skips_unknown_path (ops : SwaggerOps) (api parsedData paths : JVal)
    (documentation legacyPaths : JVal) (functions : List FunctionDecl) (h : HttpEvent)
    (i j : Nat) (hpaths : getProp api "paths" = some paths)
    (habs : pathAbsent ("/" ++ h.path) paths = true)
    (hlegacy : getProp documentation "paths" = some legacyPaths)
    (hlabs : pathAbsent ("/" ++ h.path) legacyPaths = true) :
    normalizeOpenAPI api parsedData (insertEvent ⟨some h⟩ j i functions)
        = (normalizeOpenAPI api parsedData functions).map (fun r =>
            { r with functions := insertEvent ⟨some h⟩ j i r.functions })
      ∧ normalizeSwagger ops documentation (insertEvent ⟨some h⟩ j i functions)
        = (normalizeSwagger ops documentation functions).map (fun r =>
            { r with functions := insertEvent ⟨some h⟩ j i r.functions }) :=
  ⟨normalizeOpenAPI_insert api parsedData paths functions h i j hpaths habs,
    normalizeSwagger_insert ops documentation legacyPaths functions h i j hlegacy hlabs⟩

/-! ## The component-dialect walk: the messages are written, never read -/

/-- The state with the messages `l` put before its own. -/
theorem openapiMethod_logs (fn : String) (st : NormState) (h : HttpEvent) (method : JVal) :
    openapiMethod fn st h method
      = (openapiMethod fn ⟨st.paths, st.parsePath, st.models, []⟩ h method).map fun r =>
          (⟨r.1.paths, r.1.parsePath, r.1.models, st.logs ++ r.1.logs⟩, r.2) := by
  unfold openapiMethod
  cases getProp method "description" with
  | none => rfl
  | some d =>
    cases getProp method "summary" with
    | none => rfl
    | some s =>
      simp only []
      cases openapiParameters fn h method ⟨[], [], [], [], d, s, none⟩ st.models st.parsePath with
      | none => rfl
      | some r1 =>
        obtain ⟨doc1, models1, parsePath1⟩ := r1
        simp only []
        cases openapiRequestBody fn method doc1 models1 with
        | none => rfl
        | some r2 =>
          obtain ⟨doc2, models2, method2⟩ := r2
          simp only []
          cases openapiResponses fn method2 doc2 models2 with
          | none => rfl
          | some r3 =>
            obtain ⟨doc3, models3, method3⟩ := r3
            simp

theorem openapiEvent_logs (fn : String) (st : NormState) (e : Event) :
    openapiEvent fn st e
      = (openapiEvent fn ⟨st.paths, st.parsePath, st.models, []⟩ e).map fun r =>
          (⟨r.1.paths, r.1.parsePath, r.1.models, st.logs ++ r.1.logs⟩, r.2) := by
  unfold openapiEvent
  cases e.http with
  | none => simp
  | some h =>
    simp only []
    cases getProp st.paths ("/" ++ h.path) with
    | none => rfl
    | some path =>
      simp only []
      by_cases hpt : path.truthy = true
      · simp only [hpt, if_true]
        cases getProp path h.method with
        | none => rfl
        | some method =>
          simp only []
          by_cases hmt : method.truthy = true
          · simp only [hmt, if_true]
            exact openapiMethod_logs fn st h method
          · simp [hmt]
      · simp [hpt]

theorem openapiEvents_logs (fn : String) : ∀ (es : List Event) (st : NormState),
    openapiEvents fn st es
      = (openapiEvents fn ⟨st.paths, st.parsePath, st.models, []⟩ es).map fun r =>
          (⟨r.1.paths, r.1.parsePath, r.1.models, st.logs ++ r.1.logs⟩, r.2)
  | [], st => by simp [openapiEvents]
  | e :: rest, st => by
    rw [openapiEvents_cons, openapiEvents_cons, openapiEvent_logs fn st e]
    cases openapiEvent fn ⟨st.paths, st.parsePath, st.models, []⟩ e with
    | none => rfl
    | some r1 =>
      obtain ⟨st1, e1⟩ := r1
      simp only [Option.map_some', Option.some_bind]
      rw [openapiEvents_logs fn rest ⟨st1.paths, st1.parsePath, st1.models, st.logs ++ st1.logs⟩,
        openapiEvents_logs fn rest st1]
      cases openapiEvents fn ⟨st1.paths, st1.parsePath, st1.models, []⟩ rest with
      | none => rfl
      | some r2 => simp

theorem openapiFunctions_logs : ∀ (fs : List FunctionDecl) (st : NormState),
    openapiFunctions st fs
      = (openapiFunctions ⟨st.paths, st.parsePath, st.models, []⟩ fs).map fun r =>
          (⟨r.1.paths, r.1.parsePath, r.1.models, st.logs ++ r.1.logs⟩, r.2)
  | [], st => by simp [openapiFunctions]
  | f :: rest, st => by
    obtain ⟨name, events⟩ := f
    cases events with
    | none =>
      simp only [openapiFunctions]
      rw [openapiFunctions_logs rest st]
      cases openapiFunctions ⟨st.paths, st.parsePath, st.models, []⟩ rest with
      | none => rfl
      | some r => rfl
    | some es =>
      simp only [openapiFunctions]
      rw [openapiEvents_logs name es st]
      cases openapiEvents name ⟨st.paths, st.parsePath, st.models, []⟩ es with
      | none => rfl
      | some r1 =>
        obtain ⟨st1, es1⟩ := r1
        simp only [Option.map_some']
        rw [openapiFunctions_logs rest ⟨st1.paths, st1.parsePath, st1.models, st.logs ++ st1.logs⟩,
          openapiFunctions_logs rest st1]
        cases openapiFunctions ⟨st1.paths, st1.parsePath, st1.models, []⟩ rest with
        | none => rfl
        | some r2 => simp

/-! ## The component-dialect walk: a method that is not in the specification -/

theorem insertLine_min (x : String) (k : Nat) (l t : List String) :
    insertLine x (min k l.length) (l ++ t) = insertLine x k l ++ t := by
  unfold insertLine
  by_cases hk : k ≤ l.length
  · rw [Nat.min_eq_left hk, List.take_append_of_le_length hk, List.drop_append_of_le_length hk]
    simp
  · have hk2 : l.length ≤ k := Nat.le_of_not_le hk
    rw [Nat.min_eq_right hk2, List.take_of_length_le hk2, List.drop_of_length_le hk2]
    simp

/-- An event whose path is there and whose method is not adds one message and
nothing else. -/
theorem openapiEvent_methodAbsent (fn : String) (st : NormState) (h : HttpEvent)
    (habs : methodAbsent ("/" ++ h.path) h.method st.paths = true) :
    openapiEvent fn st ⟨some h⟩
      = some (⟨st.paths, st.parsePath, st.models, st.logs ++ [logLine
          ("Documentation for function " ++ fn ++ " not found for event with " ++ h.method)]⟩,
          ⟨some h⟩) := by
  cases hp : st.paths <;> simp [hp, methodAbsent] at habs
  rename_i kvs
  cases hl : lookupKey ("/" ++ h.path) kvs with
  | none => simp [hl] at habs
  | some v =>
    cases v <;> simp [hl] at habs
    rename_i mkvs
    simp [openapiEvent, hp, getProp_obj, hl, habs, truthy]

theorem openapiEvents_insertLogged (fn : String) (h : HttpEvent) : ∀ (es : List Event) (j : Nat)
    (st : NormState), methodAbsent ("/" ++ h.path) h.method st.paths = true →
    ∃ k, openapiEvents fn st (es.take j ++ ⟨some h⟩ :: es.drop j)
      = (openapiEvents fn st es).map fun r =>
          (⟨r.1.paths, r.1.parsePath, r.1.models, insertLine (logLine
            ("Documentation for function " ++ fn ++ " not found for event with " ++ h.method))
            k r.1.logs⟩, r.2.take j ++ ⟨some h⟩ :: r.2.drop j)
  | [], j, st, habs => by
    refine ⟨st.logs.length, ?_⟩
    simp [openapiEvents, openapiEvent_methodAbsent fn st h habs, insertLine]
  | e :: rest, 0, st, habs => by
    refine ⟨min st.logs.length st.logs.length, ?_⟩
    simp only [List.take_zero, List.nil_append, List.drop_zero]
    rw [openapiEvents_cons, openapiEvent_methodAbsent fn st h habs]
    simp only [Option.some_bind]
    rw [openapiEvents_logs fn (e :: rest) st, openapiEvents_logs fn (e :: rest) ⟨_, _, _, _⟩]
    cases openapiEvents fn ⟨st.paths, st.parsePath, st.models, []⟩ (e :: rest) with
    | none => rfl
    | some r =>
      simp only [Option.map_some', insertLine_min]
      simp [insertLine]
  | e :: rest, j + 1, st, habs => by
    simp only [List.take_succ_cons, List.cons_append, List.drop_succ_cons]
    rw [openapiEvents_cons, openapiEvents_cons fn st e rest]
    cases h1 : openapiEvent fn st e with
    | none => exact ⟨0, rfl⟩
    | some r1 =>
      obtain ⟨st2, e1⟩ := r1
      obtain ⟨k, hk⟩ := openapiEvents_insertLogged fn h rest j st2
        (methodAbsent_openapiEvent _ _ fn st st2 e e1 habs h1)
      refine ⟨k, ?_⟩
      simp only [Option.some_bind]
      rw [hk]
      cases openapiEvents fn st2 rest with
      | none => rfl
      | some r2 => rfl

theorem methodAbsent_openapiFunctions (p m : String) : ∀ (fs : List FunctionDecl)
    (st st1 : NormState) (fs1 : List FunctionDecl), methodAbsent p m st.paths = true →
    openapiFunctions st fs = some (st1, fs1) → methodAbsent p m st1.paths = true
  | [], st, st1, fs1, habs, hrun => by
    simp only [openapiFunctions, Option.some.injEq, Prod.mk.injEq] at hrun
    rw [← hrun.1]; exact habs
  | f :: rest, st, st1, fs1, habs, hrun => by
    rw [openapiFunctions] at hrun
    cases he : f.events with
    | none =>
      simp only [he, Option.map_eq_some'] at hrun
      obtain ⟨r, hr, hx⟩ := hrun
      obtain ⟨st2, fs2⟩ := r
      simp only [Prod.mk.injEq] at hx
      rw [← hx.1]
      exact methodAbsent_openapiFunctions p m rest st st2 fs2 habs hr
    | some es =>
      simp only [he] at hrun
      cases h1 : openapiEvents f.name st es with
      | none => simp [h1] at hrun
      | some r1 =>
        obtain ⟨st2, es1⟩ := r1
        simp only [h1, Option.map_eq_some'] at hrun
        obtain ⟨r, hr, hx⟩ := hrun
        obtain ⟨st3, fs3⟩ := r
        simp only [Prod.mk.injEq] at hx
        rw [← hx.1]
        exact methodAbsent_openapiFunctions p m rest st2 st3 fs3
          (methodAbsent_openapiEvents p m f.name es st st2 es1 habs h1) hr

theorem openapiFunctions_insertLogged (fn : String) (es : List Event) (h : HttpEvent) (j : Nat) :
    ∀ (fs : List FunctionDecl) (i : Nat) (st : NormState),
    methodAbsent ("/" ++ h.path) h.method st.paths = true → fs[i]? = some ⟨fn, some es⟩ →
    ∃ k, openapiFunctions st (insertEvent ⟨some h⟩ j i fs)
      = (openapiFunctions st fs).map fun r =>
          (⟨r.1.paths, r.1.parsePath, r.1.models, insertLine (logLine
            ("Documentation for function " ++ fn ++ " not found for event with " ++ h.method))
            k r.1.logs⟩, insertEvent ⟨some h⟩ j i r.2)
  | [], i, st, habs, hf => by simp at hf
  | f :: rest, 0, st, habs, hf => by
    simp only [List.getElem?_cons_zero, Option.some.injEq] at hf
    subst hf
    simp only [insertEvent, Option.map_some', openapiFunctions]
    obtain ⟨k, hk⟩ := openapiEvents_insertLogged fn h es j st habs
    rw [hk]
    cases openapiEvents fn st es with
    | none => exact ⟨0, rfl⟩
    | some r1 =>
      obtain ⟨st1, es1⟩ := r1
      refine ⟨min k st1.logs.length, ?_⟩
      simp only [Option.map_some']
      rw [openapiFunctions_logs rest st1, openapiFunctions_logs rest ⟨_, _, _, _⟩]
      cases openapiFunctions ⟨st1.paths, st1.parsePath, st1.models, []⟩ rest with
      | none => rfl
      | some r2 => simp [insertLine_min, insertEvent]
  | f :: rest, i + 1, st, habs, hf => by
    simp only [List.getElem?_cons_succ] at hf
    obtain ⟨name, events⟩ := f
    cases events with
    | none =>
      simp only [insertEvent, openapiFunctions]
      obtain ⟨k, hk⟩ := openapiFunctions_insertLogged fn es h j rest i st habs hf
      refine ⟨k, ?_⟩
      rw [hk]
      cases openapiFunctions st rest with
      | none => rfl
      | some r => rfl
    | some es0 =>
      simp only [insertEvent, openapiFunctions]
      cases h1 : openapiEvents name st es0 with
      | none => exact ⟨0, rfl⟩
      | some r1 =>
        obtain ⟨st2, es1⟩ := r1
        obtain ⟨k, hk⟩ := openapiFunctions_insertLogged fn es h j rest i st2
          (methodAbsent_openapiEvents _ _ name es0 st st2 es1 habs h1) hf
        refine ⟨k, ?_⟩
        simp only []
        rw [hk]
        cases openapiFunctions st2 rest with
        | none => rfl
        | some r => rfl

/-- C10. Component dialect: an HTTP event whose path is in the specification and
whose method has no entry under that path is answered with exactly one message,
`[serverless-aws-documentation] Documentation for function <function name> not
found for event with <method>`, and with nothing else: normalising the declared
functions with such an event among the events of the function `fn`, at any
place, gives what normalising them without it gives (the same models, the same
specification, the same documentation on every other event) with the event put
back as it was, so with its `documentation` field unset, and with that one
message put among the messages. -/
theorem normalizeOpenAPI_missing_method (api parsedData paths : JVal)
    (functions : List FunctionDecl) (fn : String) (es : List Event) (h : HttpEvent) (i j : Nat)
    (hpaths : getProp api "paths" = some paths)
    (habs : methodAbsent ("/" ++ h.path) h.method paths = true)
    (hf : functions[i]? = some ⟨fn, some es⟩) :
    ∃ k, normalizeOpenAPI api parsedData (insertEvent ⟨some h⟩ j i functions)
      = (normalizeOpenAPI api parsedData functions).map fun r =>
          { r with
            functions := insertEvent ⟨some h⟩ j i r.functions
            logs := insertLine (logLine
              ("Documentation for function " ++ fn ++ " not found for event with " ++ h.method))
              k r.logs } := by
  unfold normalizeOpenAPI
  rw [hpaths]
  cases getProp parsedData "components" with
  | none => exact ⟨0, rfl⟩
  | some components =>
    cases getProp parsedData "paths" with
    | none => exact ⟨0, rfl⟩
    | some parsePath =>
      simp only []
      cases getProp api "components" with
      | none => exact ⟨0, rfl⟩
      | some apiComponents =>
        simp only []
        cases getProp apiComponents "schemas" with
        | none => exact ⟨0, rfl⟩
        | some apiSchemas =>
          simp only []
          cases openapiModels components with
          | none => exact ⟨0, rfl⟩
          | some models =>
            simp only []
            obtain ⟨k, hk⟩ := openapiFunctions_insertLogged fn es h j functions i
              ⟨paths, parsePath, models, []⟩ habs hf
            refine ⟨k, ?_⟩
            rw [hk]
            cases openapiFunctions ⟨paths, parsePath, models, []⟩ functions with
            | none => rfl
            | some r => rfl

/-! ## The component-dialect walk: the request body -/

/-- The extractor only ever appends to the collection. -/
theorem extractOpenAPIModel_models (param : JVal) (name : String) (models : List JVal)
    (r : Extraction) (h : extractOpenAPIModel param name models = some r) :
    ∃ t, r.models = models ++ t := by
  unfold extractOpenAPIModel extractModelDefinition at h
  cases hs : getProp param "schema" with
  | none => simp [hs] at h
  | some schema =>
    simp only [hs] at h
    cases hr : getProp schema "$ref" with
    | none => simp [hr] at h
    | some ref =>
      simp only [hr] at h
      by_cases ht : ref.truthy = true
      · simp only [ht, if_true] at h
        cases he : execSchemaRef (toStr ref).data with
        | none =>
          simp only [he, Option.some.injEq] at h
          subst h
          exact ⟨[], by simp⟩
        | some m =>
          simp only [he, Option.some.injEq] at h
          subst h
          exact ⟨[], by simp⟩
      · simp only [ht] at h
        cases hd : getProp param "description" with
        | none => simp [hd] at h
        | some d =>
          simp [hd] at h
          subst h
          exact ⟨_, rfl⟩

theorem openapiParam_effect (fn : String) (doc doc1 : MethodDoc) (models models1 : List JVal)
    (param param1 : JVal) (h : openapiParam fn doc models param = some (doc1, models1, param1))
    (hshape : RequestModelsShape doc) :
    RequestModelsShape doc1 ∧ ∃ t, models1 = models ++ t := by
  unfold openapiParam at h
  cases hin : getProp param "in" with
  | none => simp [hin] at h
  | some loc =>
    simp only [hin] at h
    split at h
    · simp only [Option.map_eq_some', Prod.mk.injEq] at h
      obtain ⟨d, _, rfl, rfl, _⟩ := h
      exact ⟨hshape, [], by simp⟩
    · split at h
      · simp only [Option.map_eq_some', Prod.mk.injEq] at h
        obtain ⟨d, _, rfl, rfl, _⟩ := h
        exact ⟨hshape, [], by simp⟩
      · split at h
        · simp only [Option.map_eq_some', Prod.mk.injEq] at h
          obtain ⟨d, _, rfl, rfl, _⟩ := h
          exact ⟨hshape, [], by simp⟩
        · split at h
          · simp only [Option.map_eq_some', Prod.mk.injEq] at h
            obtain ⟨r, hr, rfl, rfl, _⟩ := h
            refine ⟨?_, extractOpenAPIModel_models _ _ _ r hr⟩
            rcases hshape with h0 | ⟨v, h0⟩
            · exact Or.inr ⟨r.ret, by simp [h0, setEntry]⟩
            · exact Or.inr ⟨r.ret, by simp [h0, setEntry]⟩
          · simp only [Option.some.injEq, Prod.mk.injEq] at h
            obtain ⟨rfl, rfl, _⟩ := h
            exact ⟨hshape, [], by simp⟩

theorem openapiParams_effect (fn : String) : ∀ (params : List JVal) (doc doc1 : MethodDoc)
    (models models1 : List JVal) (params1 : List JVal),
    openapiParams fn doc models params = some (doc1, models1, params1) →
    RequestModelsShape doc → RequestModelsShape doc1 ∧ ∃ t, models1 = models ++ t
  | [], doc, doc1, models, models1, params1, h, hshape => by
    simp only [openapiParams, Option.some.injEq, Prod.mk.injEq] at h
    obtain ⟨rfl, rfl, _⟩ := h
    exact ⟨hshape, [], by simp⟩
  | p :: rest, doc, doc1, models, models1, params1, h, hshape => by
    rw [openapiParams] at h
    cases h1 : openapiParam fn doc models p with
    | none => simp [h1] at h
    | some r1 =>
      obtain ⟨doc2, models2, p1⟩ := r1
      simp only [h1] at h
      cases h2 : openapiParams fn doc2 models2 rest with
      | none => simp [h2] at h
      | some r2 =>
        obtain ⟨doc3, models3, rest1⟩ := r2
        simp only [h2, Option.some.injEq, Prod.mk.injEq] at h
        obtain ⟨rfl, rfl, _⟩ := h
        obtain ⟨hs2, t2, rfl⟩ := openapiParam_effect fn doc doc2 models models2 p p1 h1 hshape
        obtain ⟨hs3, t3, rfl⟩ := openapiParams_effect fn rest doc2 doc3 _ models3 rest1 h2 hs2
        exact ⟨hs3, t2 ++ t3, by simp⟩

theorem openapiParameters_effect (fn : String) (http : HttpEvent) (method : JVal)
    (doc doc1 : MethodDoc) (models models1 : List JVal) (parsePath parsePath1 : JVal)
    (h : openapiParameters fn http method doc models parsePath = some (doc1, models1, parsePath1))
    (hshape : RequestModelsShape doc) :
    RequestModelsShape doc1 ∧ ∃ t, models1 = models ++ t := by
  unfold openapiParameters at h
  cases hd : getProp method "parameters" with
  | none => simp [hd] at h
  | some declared =>
    simp only [hd] at h
    by_cases ht : declared.truthy = true
    · simp only [ht, if_true] at h
      cases h1 : getProp parsePath ("/" ++ http.path) with
      | none => simp [h1] at h
      | some item =>
        simp only [h1] at h
        cases h2 : getProp item http.method with
        | none => simp [h2] at h
        | some pm =>
          simp only [h2] at h
          cases h3 : getProp pm "parameters" with
          | none => simp [h3] at h
          | some ps =>
            cases ps <;> simp [h3] at h
            rename_i xs
            obtain ⟨d, m, x, hr, rfl, rfl, _⟩ := h
            exact openapiParams_effect fn xs doc d models m x hr hshape
    · simp [ht] at h
      obtain ⟨rfl, rfl, _⟩ := h
      exact ⟨hshape, [], by simp⟩

theorem openapiResponse_models (fn : String) (models models1 : List JVal) (code : String)
    (response out response1 : JVal)
    (h : openapiResponse fn models code response = some (out, models1, response1)) :
    ∃ t, models1 = models ++ t := by
  unfold openapiResponse at h
  cases h1 : jsonContent response with
  | none => simp [h1] at h
  | some media =>
    simp only [h1] at h
    cases h2 : getProp media "schema" with
    | none => simp [h2] at h
    | some schema =>
      simp only [h2] at h
      by_cases ht : schema.truthy = true
      · simp only [ht, if_true, Option.map_eq_some', Prod.mk.injEq] at h
        obtain ⟨r, hr, _, rfl, _⟩ := h
        exact extractOpenAPIModel_models _ _ _ r hr
      · simp [ht] at h
        obtain ⟨_, rfl, _⟩ := h
        exact ⟨[], by simp⟩

theorem openapiResponseList_models (fn : String) : ∀ (entries : List (String × JVal))
    (models models1 : List JVal) (out : List JVal) (entries1 : List (String × JVal)),
    openapiResponseList fn models entries = some (out, models1, entries1) →
    ∃ t, models1 = models ++ t
  | [], models, models1, out, entries1, h => by
    simp only [openapiResponseList, Option.some.injEq, Prod.mk.injEq] at h
    obtain ⟨_, rfl, _⟩ := h
    exact ⟨[], by simp⟩
  | (code, response) :: rest, models, models1, out, entries1, h => by
    rw [openapiResponseList] at h
    cases h1 : openapiResponse fn models code response with
    | none => simp [h1] at h
    | some r1 =>
      obtain ⟨o, models2, response1⟩ := r1
      simp only [h1] at h
      cases h2 : openapiResponseList fn models2 rest with
      | none => simp [h2] at h
      | some r2 =>
        obtain ⟨os, models3, rest1⟩ := r2
        simp only [h2, Option.some.injEq, Prod.mk.injEq] at h
        obtain ⟨_, rfl, _⟩ := h
        obtain ⟨t2, rfl⟩ := openapiResponse_models fn models models2 code response o response1 h1
        obtain ⟨t3, rfl⟩ := openapiResponseList_models fn rest _ models3 os rest1 h2
        exact ⟨t2 ++ t3, by simp⟩

theorem openapiResponses_effect (fn : String) (method method1 : JVal) (doc doc1 : MethodDoc)
    (models models1 : List JVal)
    (h : openapiResponses fn method doc models = some (doc1, models1, method1)) :
    doc1.requestModels = doc.requestModels ∧ ∃ t, models1 = models ++ t := by
  unfold openapiResponses at h
  cases h1 : getProp method "responses" with
  | none => simp [h1] at h
  | some responses =>
    simp only [h1] at h
    by_cases ht : responses.truthy = true
    · simp only [ht, if_true, Option.map_eq_some', Prod.mk.injEq] at h
      obtain ⟨r, hr, rfl, rfl, _⟩ := h
      obtain ⟨out, m, e⟩ := r
      exact ⟨rfl, openapiResponseList_models fn _ models m out e hr⟩
    · simp [ht] at h
      obtain ⟨rfl, rfl, _⟩ := h
      exact ⟨rfl, [], by simp⟩

/-- A value with a property other than `length` that is not `undefined` is truthy. -/
theorem truthy_of_getProp (v w : JVal) (k : String) (hk : k ≠ "length")
    (h : getProp v k = some w) (hw : w ≠ .undef) : v.truthy = true := by
  cases v with
  | undef => simp [getProp] at h
  | null => simp [getProp] at h
  | bool b =>
    simp [getProp, ownEntries, lookupKey] at h
    exact absurd h.symm hw
  | num n =>
    simp [getProp, ownEntries, lookupKey] at h
    exact absurd h.symm hw
  | str s =>
    by_cases hs : s = ""
    · subst hs
      simp only [getProp, hk, if_false, ownEntries] at h
      simp [indexEntries, lookupKey] at h
      exact absurd h.symm hw
    · simp [truthy, hs]
  | arr xs => rfl
  | obj kvs => rfl

theorem ne_undef_of_getProp (v w : JVal) (k : String) (h : getProp v k = some w) :
    v ≠ .undef := by
  intro e
  subst e
  simp [getProp] at h

/-- The request body of a method whose JSON schema is inline: one Model
Definition named `<function name>Request` is appended and its name stored. -/
theorem openapiRequestBody_inline (fn : String) (method requestBody content media : JVal)
    (skvs : List (String × JVal)) (doc : MethodDoc) (models : List JVal)
    (hbody : getProp method "requestBody" = some requestBody)
    (hcontent : getProp requestBody "content" = some content)
    (hmedia : getProp content "application/json" = some media)
    (hschema : getProp media "schema" = some (.obj skvs))
    (hnoref : lookupKey "$ref" skvs = none) :
    ∃ d doc1 method1, openapiRequestBody fn method doc models
        = some (doc1,
          models ++ [modelDefinition (fn ++ "Request") d (replaceOpenAPIRefs (.obj skvs))],
          method1) ∧
      doc1.requestModels
        = setEntry "application/json" (.str (fn ++ "Request")) doc.requestModels := by
  have hcu := ne_undef_of_getProp content media _ hmedia
  have hmu := ne_undef_of_getProp media _ _ hschema
  have hrt := truthy_of_getProp requestBody content "content" (by decide) hcontent hcu
  have hct := truthy_of_getProp content media "application/json" (by decide) hmedia hmu
  obtain ⟨d, hd⟩ := getProp_description_of_schema media _ hschema
  refine ⟨d, ⟨doc.requestHeaders, doc.pathParams, doc.queryParams,
    setEntry "application/json" (.str (fn ++ "Request")) doc.requestModels, doc.description,
    doc.summary, doc.methodResponses⟩,
    setIn method ["requestBody", "content", "application/json"]
      (putBack media "schema" (replaceOpenAPIRefs (.obj skvs))), ?_, rfl⟩
  simp only [openapiRequestBody, hbody, hrt, if_true, hcontent, hct, hmedia, extractOpenAPIModel,
    extractModelDefinition_inline media skvs (fn ++ "Request") models d hschema hnoref hd,
    Option.map_some']

theorem getProp_toJVal_requestModels (doc : MethodDoc) :
    getProp doc.toJVal "requestModels" = some (.obj doc.requestModels) := by
  simp [MethodDoc.toJVal, getProp_obj, lookupKey]

/-- C8. Component dialect: when the method matched by an event of the function
`fn` has a `requestBody` whose `content['application/json'].schema` is an object
without a `$ref` entry, normalising the event appends a Model Definition named
`fn` + `Request` to the model collection (its schema is the resolved inline
schema) and stores on the event a Documentation Record whose `requestModels` is
exactly the mapping of `application/json` to that name.  For the function
`createWidget` the name is `createWidgetRequest`. -/
theorem openapiEvent_inline_requestBody (fn : String) (st st1 : NormState) (h : HttpEvent)
    (ev1 : Event) (path method requestBody content media : JVal) (skvs : List (String × JVal))
    (hpath : getProp st.paths ("/" ++ h.path) = some path) (hpt : path.truthy = true)
    (hmethod : getProp path h.method = some method) (hmt : method.truthy = true)
    (hbody : getProp method "requestBody" = some requestBody)
    (hcontent : getProp requestBody "content" = some content)
    (hmedia : getProp content "application/json" = some media)
    (hschema : getProp media "schema" = some (.obj skvs))
    (hnoref : lookupKey "$ref" skvs = none)
    (hrun : openapiEvent fn st ⟨some h⟩ = some (st1, ev1)) :
    ∃ doc description before after,
      ev1 = ⟨some { h with documentation := some doc }⟩ ∧
      getProp doc "requestModels" = some (.obj [("application/json", .str (fn ++ "Request"))]) ∧
      st1.models = st.models ++ before ++
        modelDefinition (fn ++ "Request") description (replaceOpenAPIRefs (.obj skvs)) :: after := by
  simp only [openapiEvent, hpath, hpt, if_true, hmethod, hmt] at hrun
  unfold openapiMethod at hrun
  cases hd : getProp method "description" with
  | none => simp [hd] at hrun
  | some d =>
    cases hs : getProp method "summary" with
    | none => simp [hd, hs] at hrun
    | some s =>
      simp only [hd, hs] at hrun
      cases h1 : openapiParameters fn h method ⟨[], [], [], [], d, s, none⟩ st.models st.parsePath with
      | none => simp [h1] at hrun
      | some r1 =>
        obtain ⟨doc1, models1, parsePath1⟩ := r1
        simp only [h1] at hrun
        obtain ⟨hshape, t1, rfl⟩ := openapiParameters_effect fn h method _ doc1 st.models models1
          st.parsePath parsePath1 h1 (Or.inl rfl)
        obtain ⟨dsc, doc2, method1, h2, hrm2⟩ := openapiRequestBody_inline fn method requestBody
          content media skvs doc1 (st.models ++ t1) hbody hcontent hmedia hschema hnoref
        simp only [h2] at hrun
        cases h3 : openapiResponses fn method1 doc2
            (st.models ++ t1 ++
              [modelDefinition (fn ++ "Request") dsc (replaceOpenAPIRefs (.obj skvs))]) with
        | none =>
          rw [h3] at hrun
          simp at hrun
        | some r3 =>
          obtain ⟨doc3, models3, method3⟩ := r3
          simp only [h3, Option.some.injEq, Prod.mk.injEq] at hrun
          obtain ⟨rfl, rfl⟩ := hrun
          obtain ⟨hrm, t3, rfl⟩ := openapiResponses_effect fn method1 method3 _ doc3 _ models3 h3
          refine ⟨doc3.toJVal, dsc, t1, t3, rfl, ?_, by simp⟩
          rw [getProp_toJVal_requestModels, hrm, hrm2]
          rcases hshape with h0 | ⟨v, h0⟩ <;> simp [h0, setEntry]

/-- End to end, inline body: the function `createWidget` on `createWidgetApi`. -/
theorem normalizeOpenAPI_createWidget :
    normalizeOpenAPI createWidgetApi createWidgetApi
        [⟨"createWidget", some [⟨some ⟨"widgets", "post", none⟩⟩]⟩]
      = some ⟨createWidgetApi, createWidgetApi,
          [modelDefinition "createWidgetRequest" .undef (.obj createWidgetSchema)],
          [⟨"createWidget", some [⟨some ⟨"widgets", "post",
            some (.obj [("requestHeaders", .arr []), ("pathParams", .arr []),
              ("queryParams", .arr []),
              ("requestModels", .obj [("application/json", .str "createWidgetRequest")]),
              ("description", .undef), ("summary", .undef),
              ("methodResponses", .arr [.obj [("statusCode", .str "201")]])])⟩⟩]⟩],
          []⟩ := by
  decide

/-! ## Instances -/

theorem openapiEvent_inline_requestBody_witness :
    ∃ doc description before after,
      (⟨some ⟨"widgets", "post", some (.obj [("requestHeaders", .arr []), ("pathParams", .arr []),
          ("queryParams", .arr []),
          ("requestModels", .obj [("application/json", .str "createWidgetRequest")]),
          ("description", .undef), ("summary", .undef),
          ("methodResponses", .arr [.obj [("statusCode", .str "201")]])])⟩⟩ : Event)
        = ⟨some { (⟨"widgets", "post", none⟩ : HttpEvent) with documentation := some doc }⟩ ∧
      getProp doc "requestModels"
        = some (.obj [("application/json", .str ("createWidget" ++ "Request"))]) ∧
      (NormState.mk createWidgetPaths createWidgetPaths
          [modelDefinition "createWidgetRequest" .undef (.obj createWidgetSchema)] []).models
        = (NormState.mk createWidgetPaths createWidgetPaths [] []).models ++ before ++
          modelDefinition ("createWidget" ++ "Request") description
            (replaceOpenAPIRefs (.obj createWidgetSchema)) :: after :=
  openapiEvent_inline_requestBody "createWidget" ⟨createWidgetPaths, createWidgetPaths, [], []⟩
    ⟨createWidgetPaths, createWidgetPaths,
      [modelDefinition "createWidgetRequest" .undef (.obj createWidgetSchema)], []⟩
    ⟨"widgets", "post", none⟩ _ _ _ _ _ _ createWidgetSchema
    (by rfl) (by decide) (by rfl) (by decide) (by rfl) (by rfl) (by rfl) (by rfl) (by decide)
    (by decide)

theorem normalize_skips_unknown_path_witness :
    normalizeOpenAPI widgetApi widgetApi
        (insertEvent ⟨some ⟨"gadgets", "get", none⟩⟩ 1 0
          [⟨"getWidgets", some [⟨some ⟨"widgets", "get", none⟩⟩]⟩])
        = (normalizeOpenAPI widgetApi widgetApi
            [⟨"getWidgets", some [⟨some ⟨"widgets", "get", none⟩⟩]⟩]).map (fun r =>
            { r with functions := insertEvent ⟨some ⟨"gadgets", "get", none⟩⟩ 1 0 r.functions })
      ∧ normalizeSwagger idleSwaggerOps legacyDocumentation
          (insertEvent ⟨some ⟨"gadgets", "get", none⟩⟩ 1 0
            [⟨"getWidgets", some [⟨some ⟨"widgets", "get", none⟩⟩]⟩])
        = (normalizeSwagger idleSwaggerOps legacyDocumentation
            [⟨"getWidgets", some [⟨some ⟨"widgets", "get", none⟩⟩]⟩]).map (fun r =>
            { r with functions := insertEvent ⟨some ⟨"gadgets", "get", none⟩⟩ 1 0 r.functions }) :=
  normalize_skips_unknown_path idleSwaggerOps widgetApi widgetApi _ legacyDocumentation _
    [⟨"getWidgets", some [⟨some ⟨"widgets", "get", none⟩⟩]⟩] ⟨"gadgets", "get", none⟩ 0 1
    (by rfl) (by decide) (by rfl) (by decide)

theorem normalizeOpenAPI_missing_method_witness :
    ∃ k, normalizeOpenAPI widgetApi widgetApi
        (insertEvent ⟨some ⟨"widgets", "post", none⟩⟩ 1 0
          [⟨"getWidgets", some [⟨some ⟨"widgets", "get", none⟩⟩]⟩])
      = (normalizeOpenAPI widgetApi widgetApi
          [⟨"getWidgets", some [⟨some ⟨"widgets", "get", none⟩⟩]⟩]).map fun r =>
          { r with
            functions := insertEvent ⟨some ⟨"widgets", "post", none⟩⟩ 1 0 r.functions
            logs := insertLine (logLine ("Documentation for function " ++ "getWidgets"
              ++ " not found for event with " ++ "post")) k r.logs } :=
  normalizeOpenAPI_missing_method widgetApi widgetApi _
    [⟨"getWidgets", some [⟨some ⟨"widgets", "get", none⟩⟩]⟩] "getWidgets"
    [⟨some ⟨"widgets", "get", none⟩⟩] ⟨"widgets", "post", none⟩ 0 1
    (by rfl) (by decide) (by rfl)

/-! ## Assignments to an object -/

theorem lookupKey_setEntry (k l : String) (x : JVal) (kvs : List (String × JVal)) :
    lookupKey k (setEntry l x kvs) = if k = l then some x else lookupKey k kvs := by
  induction kvs with
  | nil =>
    by_cases h : k = l
    · simp [setEntry, lookupKey, h]
    · have h2 : ¬ l = k := fun e => h e.symm
      simp [setEntry, lookupKey, h, h2]
  | cons e rest ih =>
    obtain ⟨m, v⟩ := e
    by_cases hm : m = l
    · by_cases h : k = l
      · simp [setEntry, lookupKey, hm, h]
      · have h2 : ¬ l = k := fun e => h e.symm
        simp [setEntry, lookupKey, hm, h, h2]
    · by_cases hk : m = k
      · have : ¬ k = l := fun e => hm (hk.trans e)
        simp [setEntry, lookupKey, hm, hk, this]
      · simp [setEntry, lookupKey, hm, hk, ih]

theorem lookupKey_isSome_iff (k : String) (kvs : List (String × JVal)) :
    (lookupKey k kvs).isSome = true ↔ k ∈ kvs.map Prod.fst := by
  induction kvs with
  | nil => simp [lookupKey]
  | cons e rest ih =>
    obtain ⟨m, v⟩ := e
    by_cases hm : m = k
    · simp [lookupKey, hm]
    · have : ¬ k = m := fun e => hm e.symm
      simp [lookupKey, hm, ih, this]

theorem lookupKey_eq_none_iff (k : String) (kvs : List (String × JVal)) :
    lookupKey k kvs = none ↔ k ∉ kvs.map Prod.fst := by
  rw [← lookupKey_isSome_iff]
  cases lookupKey k kvs <;> simp

/-- Assigning a key twice is assigning it the second value. -/
theorem setEntry_setEntry (k : String) (v w : JVal) (kvs : List (String × JVal)) :
    setEntry k v (setEntry k w kvs) = setEntry k v kvs := by
  induction kvs with
  | nil => simp [setEntry]
  | cons e rest ih =>
    obtain ⟨m, x⟩ := e
    by_cases hm : m = k
    · simp [setEntry, hm]
    · simp [setEntry, hm, ih]

/-- Assigning a key that is there commutes with assigning another key. -/
theorem setEntry_comm (k l : String) (v w : JVal) (hkl : k ≠ l) :
    ∀ kvs : List (String × JVal), (lookupKey k kvs).isSome = true →
      setEntry k v (setEntry l w kvs) = setEntry l w (setEntry k v kvs)
  | [], h => by simp [lookupKey] at h
  | (m, x) :: rest, h => by
    by_cases hmk : m = k
    · have hml : ¬ m = l := fun e => hkl (hmk.symm.trans e)
      subst hmk
      simp [setEntry, hml]
    · by_cases hml : m = l
      · subst hml
        simp [setEntry, hmk]
      · have h2 : (lookupKey k rest).isSome = true := by simpa [lookupKey, hmk] using h
        simp [setEntry, hmk, hml, setEntry_comm k l v w hkl rest h2]

/-- An assignment keeps the keys in place and puts a new key last. -/
theorem keys_setEntry (k : String) (v : JVal) (kvs : List (String × JVal)) :
    (setEntry k v kvs).map Prod.fst
      = if k ∈ kvs.map Prod.fst then kvs.map Prod.fst else kvs.map Prod.fst ++ [k] := by
  induction kvs with
  | nil => simp [setEntry]
  | cons e rest ih =>
    obtain ⟨m, x⟩ := e
    by_cases hm : m = k
    · simp [setEntry, hm]
    · have : ¬ k = m := fun e => hm e.symm
      by_cases hin : k ∈ rest.map Prod.fst
      · simp [setEntry, hm, ih, hin, this]
      · simp only [setEntry, hm, if_false, List.map_cons, ih, hin, List.mem_cons, this, or_self,
          List.cons_append]

theorem nodup_keys_setEntry (k : String) (v : JVal) (kvs : List (String × JVal))
    (h : (kvs.map Prod.fst).Nodup) : ((setEntry k v kvs).map Prod.fst).Nodup := by
  rw [keys_setEntry]
  by_cases hin : k ∈ kvs.map Prod.fst
  · simpa [hin] using h
  · simp only [hin, if_false]
    exact List.Nodup.append h (List.nodup_singleton k) (by simpa using hin)

/-! ## `Object.assign` -/

theorem objectAssign_append (target a b : List (String × JVal)) :
    objectAssign target (a ++ b) = objectAssign (objectAssign target a) b := by
  induction a generalizing target with
  | nil => rfl
  | cons e rest ih =>
    obtain ⟨k, v⟩ := e
    simp [objectAssign, ih]

theorem lookupKey_isSome_objectAssign (k : String) : ∀ (source target : List (String × JVal)),
    (lookupKey k target).isSome = true → (lookupKey k (objectAssign target source)).isSome = true
  | [], target, h => h
  | (l, w) :: rest, target, h => by
    apply lookupKey_isSome_objectAssign k rest
    rw [lookupKey_setEntry]
    by_cases hkl : k = l <;> simp [hkl, h]

/-- A key that the source does not hold keeps its value. -/
theorem lookupKey_objectAssign_of_none (k : String) : ∀ (source target : List (String × JVal)),
    lookupKey k source = none → lookupKey k (objectAssign target source) = lookupKey k target
  | [], target, _ => rfl
  | (l, w) :: rest, target, h => by
    by_cases hlk : l = k
    · simp [lookupKey, hlk] at h
    · have hkl : ¬ k = l := fun e => hlk e.symm
      simp only [lookupKey, hlk, if_false] at h
      rw [objectAssign, lookupKey_objectAssign_of_none k rest _ h, lookupKey_setEntry]
      simp [hkl]

/-- A key that the source holds gets the value of the source. -/
theorem lookupKey_objectAssign_of_some (k : String) (v : JVal) :
    ∀ (source target : List (String × JVal)), (source.map Prod.fst).Nodup →
      lookupKey k source = some v → lookupKey k (objectAssign target source) = some v
  | [], target, _, h => by simp [lookupKey] at h
  | (l, w) :: rest, target, hnd, h => by
    simp only [List.map_cons, List.nodup_cons] at hnd
    by_cases hlk : l = k
    · subst hlk
      simp only [lookupKey, if_true, Option.some.injEq] at h
      subst h
      have hnone : lookupKey l rest = none := (lookupKey_eq_none_iff l rest).2 hnd.1
      rw [objectAssign, lookupKey_objectAssign_of_none l rest _ hnone, lookupKey_setEntry]
      simp
    · simp only [lookupKey, hlk, if_false] at h
      rw [objectAssign]
      exact lookupKey_objectAssign_of_some k v rest _ hnd.2 h

theorem keys_objectAssign : ∀ (source target : List (String × JVal)),
    ∃ added, (objectAssign target source).map Prod.fst = target.map Prod.fst ++ added
  | [], target => ⟨[], by simp [objectAssign]⟩
  | (l, w) :: rest, target => by
    obtain ⟨added, h⟩ := keys_objectAssign rest (setEntry l w target)
    rw [objectAssign, h, keys_setEntry]
    by_cases hin : l ∈ target.map Prod.fst
    · exact ⟨added, by simp [hin]⟩
    · exact ⟨l :: added, by simp [hin]⟩

theorem nodup_keys_objectAssign : ∀ (source target : List (String × JVal)),
    (target.map Prod.fst).Nodup → ((objectAssign target source).map Prod.fst).Nodup
  | [], _, h => h
  | (l, w) :: rest, target, h => by
    rw [objectAssign]
    exact nodup_keys_objectAssign rest _ (nodup_keys_setEntry l w target h)

/-- Assigning a key that is there, then a source that does not hold it. -/
theorem objectAssign_setEntry_of_none (k : String) (v : JVal) :
    ∀ (source target : List (String × JVal)), (lookupKey k target).isSome = true →
      lookupKey k source = none →
      objectAssign (setEntry k v target) source = setEntry k v (objectAssign target source)
  | [], _, _, _ => rfl
  | (l, w) :: rest, target, hk, h => by
    by_cases hlk : l = k
    · simp [lookupKey, hlk] at h
    · have hkl : k ≠ l := fun e => hlk e.symm
      simp only [lookupKey, hlk, if_false] at h
      have hk2 : (lookupKey k (setEntry l w target)).isSome = true := by
        rw [lookupKey_setEntry]; simp [hkl, hk]
      rw [objectAssign, objectAssign, ← setEntry_comm k l v w hkl target hk,
        objectAssign_setEntry_of_none k v rest _ hk2 h]

/-- Assigning a key that is there, then a source that holds it. -/
theorem objectAssign_setEntry_of_some (k : String) (v : JVal) :
    ∀ (source target : List (String × JVal)), (lookupKey k target).isSome = true →
      (lookupKey k source).isSome = true →
      objectAssign (setEntry k v target) source = objectAssign target source
  | [], _, _, h => by simp [lookupKey] at h
  | (l, w) :: rest, target, hk, h => by
    by_cases hlk : l = k
    · subst hlk
      rw [objectAssign, objectAssign, setEntry_setEntry]
    · have hkl : k ≠ l := fun e => hlk e.symm
      simp only [lookupKey, hlk, if_false] at h
      have hk2 : (lookupKey k (setEntry l w target)).isSome = true := by
        rw [lookupKey_setEntry]; simp [hkl, hk]
      rw [objectAssign, objectAssign, ← setEntry_comm k l v w hkl target hk,
        objectAssign_setEntry_of_some k v rest _ hk2 h]

/-- Assigning the same source a second time changes nothing. -/
theorem objectAssign_idempotent : ∀ (source target : List (String × JVal)),
    objectAssign (objectAssign target source) source = objectAssign target source
  | [], _ => rfl
  | (k, v) :: rest, target => by
    have hk : (lookupKey k (setEntry k v target)).isSome = true := by
      rw [lookupKey_setEntry]; simp
    have hk2 := lookupKey_isSome_objectAssign k rest _ hk
    rw [objectAssign, objectAssign]
    cases hr : lookupKey k rest with
    | some x =>
      rw [objectAssign_setEntry_of_some k v rest _ hk2 (by simp [hr])]
      exact objectAssign_idempotent rest _
    | none =>
      rw [objectAssign_setEntry_of_none k v rest _ hk2 hr, objectAssign_idempotent rest _,
        ← objectAssign_setEntry_of_none k v rest _ hk hr, setEntry_setEntry]

/-! ## The template merge -/

theorem mapCfModel_append (c : JVal → Option JVal) (a b : List JVal) :
    mapCfModel c (a ++ b)
      = (mapCfModel c a).bind fun x => (mapCfModel c b).map fun y => x ++ y := by
  induction a with
  | nil =>
    simp only [List.nil_append, mapCfModel, Option.some_bind]
    cases mapCfModel c b <;> simp
  | cons m rest ih =>
    rw [List.cons_append, mapCfModel, ih, mapCfModel]
    cases c m with
    | none => rfl
    | some r =>
      cases mapCfModel c rest with
      | none => rfl
      | some x => cases mapCfModel c b <;> rfl

/-- Every built resource is built from a Model Definition of the collection. -/
theorem mapCfModel_mem_built (c : JVal → Option JVal) : ∀ (ms built : List JVal),
    mapCfModel c ms = some built → ∀ b ∈ built, ∃ m ∈ ms, c m = some b
  | [], built, h, b, hb => by
    simp only [mapCfModel, Option.some.injEq] at h
    subst h
    simp at hb
  | m :: rest, built, h, b, hb => by
    rw [mapCfModel] at h
    cases hc : c m with
    | none => simp [hc] at h
    | some r =>
      simp only [hc] at h
      cases hr : mapCfModel c rest with
      | none => simp [hr] at h
      | some rs =>
        simp only [hr, Option.some.injEq] at h
        subst h
        rcases List.mem_cons.1 hb with rfl | hb
        · exact ⟨m, by simp, hc⟩
        · obtain ⟨m', hm', hc'⟩ := mapCfModel_mem_built c rest rs hr b hb
          exact ⟨m', List.mem_cons_of_mem _ hm', hc'⟩

/-- Every Model Definition of the collection has its built resource. -/
theorem mapCfModel_mem_models (c : JVal → Option JVal) : ∀ (ms built : List JVal),
    mapCfModel c ms = some built → ∀ m ∈ ms, ∃ b ∈ built, c m = some b
  | [], built, h, m, hm => by simp at hm
  | m0 :: rest, built, h, m, hm => by
    rw [mapCfModel] at h
    cases hc : c m0 with
    | none => simp [hc] at h
    | some r =>
      simp only [hc] at h
      cases hr : mapCfModel c rest with
      | none => simp [hr] at h
      | some rs =>
        simp only [hr, Option.some.injEq] at h
        subst h
        rcases List.mem_cons.1 hm with rfl | hm
        · exact ⟨r, by simp, hc⟩
        · obtain ⟨b, hb, hc'⟩ := mapCfModel_mem_models c rest rs hr m hm
          exact ⟨b, List.mem_cons_of_mem _ hb, hc'⟩

/-- The `reduce` succeeds only if every built resource has a key. -/
theorem reduceModels_modelKey : ∀ (built : List JVal) (acc mo : List (String × JVal)),
    reduceModels acc built = some mo → ∀ b ∈ built, ∃ k, modelKey b = some k
  | [], _, _, _, b, hb => by simp at hb
  | b0 :: rest, acc, mo, h, b, hb => by
    rw [reduceModels] at h
    cases hk : modelKey b0 with
    | none => simp [hk] at h
    | some k0 =>
      simp only [hk] at h
      rcases List.mem_cons.1 hb with rfl | hb
      · exact ⟨k0, hk⟩
      · exact reduceModels_modelKey rest _ mo h b hb

theorem nodup_keys_reduceModels : ∀ (built : List JVal) (acc mo : List (String × JVal)),
    reduceModels acc built = some mo → (acc.map Prod.fst).Nodup → (mo.map Prod.fst).Nodup
  | [], acc, mo, h, hnd => by
    simp only [reduceModels, Option.some.injEq] at h
    subst h
    exact hnd
  | b0 :: rest, acc, mo, h, hnd => by
    rw [reduceModels] at h
    cases hk : modelKey b0 with
    | none => simp [hk] at h
    | some k0 =>
      simp only [hk] at h
      exact nodup_keys_reduceModels rest _ mo h (nodup_keys_setEntry k0 b0 acc hnd)

/-- A key that no built resource has keeps what the accumulator holds. -/
theorem lookupKey_reduceModels_of_not_mem (k : String) : ∀ (built : List JVal)
    (acc mo : List (String × JVal)), reduceModels acc built = some mo →
    (∀ b ∈ built, modelKey b ≠ some k) → lookupKey k mo = lookupKey k acc
  | [], acc, mo, h, _ => by
    simp only [reduceModels, Option.some.injEq] at h
    subst h
    rfl
  | b0 :: rest, acc, mo, h, hno => by
    rw [reduceModels] at h
    cases hk : modelKey b0 with
    | none => simp [hk] at h
    | some k0 =>
      simp only [hk] at h
      have hne : ¬ k = k0 := by
        intro e
        subst e
        exact hno b0 (by simp) hk
      rw [lookupKey_reduceModels_of_not_mem k rest _ mo h
        (fun b hb => hno b (List.mem_cons_of_mem _ hb)), lookupKey_setEntry]
      simp [hne]

/-- The last built resource of a key is what the collected object holds. -/
theorem lookupKey_reduceModels_last (k : String) (b : JVal) (bpost : List JVal)
    (hk : modelKey b = some k) (hpost : ∀ x ∈ bpost, modelKey x ≠ some k) :
    ∀ (bpre : List JVal) (acc mo : List (String × JVal)),
      reduceModels acc (bpre ++ b :: bpost) = some mo → lookupKey k mo = some b
  | [], acc, mo, h => by
    simp only [List.nil_append] at h
    rw [reduceModels] at h
    simp only [hk] at h
    rw [lookupKey_reduceModels_of_not_mem k bpost _ mo h hpost, lookupKey_setEntry]
    simp
  | b0 :: rest, acc, mo, h => by
    simp only [List.cons_append] at h
    rw [reduceModels] at h
    cases hk0 : modelKey b0 with
    | none => simp [hk0] at h
    | some k0 =>
      simp only [hk0] at h
      exact lookupKey_reduceModels_last k b bpost hk hpost rest _ mo h

/-- Among the elements that satisfy a test there is a last one. -/
theorem exists_last_of_mem {α : Type} (p : α → Prop) : ∀ (l : List α) (a : α), a ∈ l → p a →
    ∃ pre b post, l = pre ++ b :: post ∧ p b ∧ ∀ x ∈ post, ¬ p x
  | [], a, h, _ => by simp at h
  | c :: rest, a, h, hp => by
    by_cases hex : ∃ x ∈ rest, p x
    · obtain ⟨x, hx, hpx⟩ := hex
      obtain ⟨pre, b, post, hl, hb, hpost⟩ := exists_last_of_mem p rest x hx hpx
      exact ⟨c :: pre, b, post, by simp [hl], hb, hpost⟩
    · have hc : p c := by
        rcases List.mem_cons.1 h with rfl | h
        · exact hp
        · exact absurd ⟨a, h, hp⟩ hex
      exact ⟨[], c, rest, rfl, hc, fun x hx hpx => hex ⟨x, hx, hpx⟩⟩

/-- The merge of a model collection that is an array. -/
theorem mergeModels_arr (c : JVal → Option JVal) (documentation : JVal) (ms : List JVal)
    (R : List (String × JVal)) (hmodels : getProp documentation "models" = some (.arr ms)) :
    mergeModels c documentation R
      = (mapCfModel c ms).bind fun built =>
          (reduceModels [] built).map fun modelObj => objectAssign R modelObj := by
  simp only [mergeModels, hmodels, truthy, if_true]
  cases mapCfModel c ms with
  | none => rfl
  | some built =>
    simp only [Option.some_bind]
    cases reduceModels [] built <;> rfl

/-- The merge applied to its own result gives that result. -/
theorem mergeModels_fix (c : JVal → Option JVal) (documentation : JVal)
    (R R1 : List (String × JVal)) (h : mergeModels c documentation R = some R1) :
    mergeModels c documentation R1 = some R1 := by
  unfold mergeModels at h ⊢
  cases hm : getProp documentation "models" with
  | none => simp [hm] at h
  | some models =>
    simp only [hm] at h ⊢
    by_cases ht : models.truthy = true
    · simp only [ht, if_true] at h ⊢
      cases models <;> simp at h
      rename_i ms
      simp only []
      cases hb : mapCfModel c ms with
      | none => simp [hb] at h
      | some built =>
        simp only [hb] at h ⊢
        cases hr : reduceModels [] built with
        | none => simp [hr] at h
        | some mo =>
          simp only [hr, Option.some.injEq] at h ⊢
          subst h
          exact objectAssign_idempotent mo R
    · simp only [ht] at h ⊢
      simp only [Bool.false_eq_true, if_false, Option.some.injEq] at h ⊢

/-- A key that no built resource has keeps its value through the merge. -/
theorem lookupKey_merged_of_not_mem (c : JVal → Option JVal) (documentation : JVal)
    (ms built : List JVal) (R R1 : List (String × JVal)) (k : String)
    (hmodels : getProp documentation "models" = some (.arr ms))
    (hbuilt : mapCfModel c ms = some built)
    (hrun : mergeModels c documentation R = some R1)
    (hno : ∀ b ∈ built, modelKey b ≠ some k) : lookupKey k R1 = lookupKey k R := by
  rw [mergeModels_arr c documentation ms R hmodels, hbuilt] at hrun
  simp only [Option.some_bind, Option.map_eq_some'] at hrun
  obtain ⟨mo, hmo, rfl⟩ := hrun
  have h0 := lookupKey_reduceModels_of_not_mem k built [] mo hmo hno
  exact lookupKey_objectAssign_of_none k mo R (by simpa [lookupKey] using h0)

/-- The last built resource of a key is what the merged map holds. -/
theorem lookupKey_merged_last (c : JVal → Option JVal) (documentation : JVal)
    (ms bpre bpost : List JVal) (b : JVal) (R R1 : List (String × JVal)) (k : String)
    (hmodels : getProp documentation "models" = some (.arr ms))
    (hbuilt : mapCfModel c ms = some (bpre ++ b :: bpost))
    (hrun : mergeModels c documentation R = some R1)
    (hk : modelKey b = some k) (hpost : ∀ x ∈ bpost, modelKey x ≠ some k) :
    lookupKey k R1 = some b := by
  rw [mergeModels_arr c documentation ms R hmodels, hbuilt] at hrun
  simp only [Option.some_bind, Option.map_eq_some'] at hrun
  obtain ⟨mo, hmo, rfl⟩ := hrun
  have h0 := lookupKey_reduceModels_last k b bpost hk hpost bpre [] mo hmo
  exact lookupKey_objectAssign_of_some k b mo R
    (nodup_keys_reduceModels _ [] mo hmo (by simp)) h0

theorem keys_merged (c : JVal → Option JVal) (documentation : JVal)
    (R R1 : List (String × JVal)) (hrun : mergeModels c documentation R = some R1) :
    (∃ added, R1.map Prod.fst = R.map Prod.fst ++ added) ∧
      ((R.map Prod.fst).Nodup → (R1.map Prod.fst).Nodup) := by
  unfold mergeModels at hrun
  cases hm : getProp documentation "models" with
  | none => simp [hm] at hrun
  | some models =>
    simp only [hm] at hrun
    by_cases ht : models.truthy = true
    · simp only [ht, if_true] at hrun
      cases models <;> simp at hrun
      rename_i ms
      cases hb : mapCfModel c ms with
      | none => simp [hb] at hrun
      | some built =>
        simp only [hb] at hrun
        cases hr : reduceModels [] built with
        | none => simp [hr] at hrun
        | some mo =>
          simp only [hr, Option.some.injEq] at hrun
          subst hrun
          exact ⟨keys_objectAssign mo R, nodup_keys_objectAssign mo R⟩
    · simp only [ht] at hrun
      simp only [Bool.false_eq_true, if_false, Option.some.injEq] at hrun
      subst hrun
      exact ⟨⟨[], by simp⟩, id⟩

/-- Every Model Definition of the collection has its key in the merged map,
holding a resource built from a definition of that key. -/
theorem merged_holds_built (c : JVal → Option JVal) (documentation : JVal)
    (ms : List JVal) (R R1 : List (String × JVal))
    (hmodels : getProp documentation "models" = some (.arr ms)) (hname : NamesByModel c)
    (hrun : mergeModels c documentation R = some R1) (m : JVal) (hm : m ∈ ms) :
    ∃ k m1 res, modelResourceKey m = some k ∧ m1 ∈ ms ∧ modelResourceKey m1 = some k ∧
      c m1 = some res ∧ lookupKey k R1 = some res := by
  have hrun2 := hrun
  rw [mergeModels_arr c documentation ms R hmodels] at hrun2
  cases hb : mapCfModel c ms with
  | none => simp [hb] at hrun2
  | some built =>
    simp only [hb, Option.some_bind, Option.map_eq_some'] at hrun2
    obtain ⟨mo, hmo, _⟩ := hrun2
    obtain ⟨b, hbmem, hcb⟩ := mapCfModel_mem_models c ms built hb m hm
    obtain ⟨k, hk⟩ := reduceModels_modelKey built [] mo hmo b hbmem
    obtain ⟨bpre, b1, bpost, hdec, hk1, hpost⟩ :=
      exists_last_of_mem (fun x => modelKey x = some k) built b hbmem hk
    have hb1 : b1 ∈ built := by rw [hdec]; simp
    obtain ⟨m1, hm1, hc1⟩ := mapCfModel_mem_built c ms built hb b1 hb1
    refine ⟨k, m1, b1, ?_, hm1, ?_, hc1, ?_⟩
    · rw [← hname m b hcb]; exact hk
    · rw [← hname m1 b1 hc1]; exact hk1
    · exact lookupKey_merged_last c documentation ms bpre bpost b1 R R1 k hmodels
        (by rw [hb, hdec]) hrun hk1 hpost

/-- C13. Running the template merge a second time with the same model
collection and the same resource builder gives the resource map that running it
once gives; and when the builder names every resource after its Model
Definition, each key `<name>Model` of a definition of the collection occurs
exactly once among the keys of the map (the map given having no key twice). -/
theorem mergeModels_idempotent (c : JVal → Option JVal) (documentation : JVal)
    (ms : List JVal) (R : List (String × JVal))
    (hmodels : getProp documentation "models" = some (.arr ms)) (hname : NamesByModel c)
    (hnodup : (R.map Prod.fst).Nodup) :
    (mergeModels c documentation R).bind (mergeModels c documentation)
        = mergeModels c documentation R ∧
      ∀ R2, (mergeModels c documentation R).bind (mergeModels c documentation) = some R2 →
        ∀ m ∈ ms, ∃ k, modelResourceKey m = some k ∧ (R2.map Prod.fst).count k = 1 := by
  have hfix : (mergeModels c documentation R).bind (mergeModels c documentation)
      = mergeModels c documentation R := by
    cases h : mergeModels c documentation R with
    | none => rfl
    | some R1 => simpa using mergeModels_fix c documentation R R1 h
  refine ⟨hfix, ?_⟩
  intro R2 h2 m hm
  rw [hfix] at h2
  obtain ⟨k, m1, res, hk, _, _, _, hlook⟩ :=
    merged_holds_built c documentation ms R R2 hmodels hname h2 m hm
  refine ⟨k, hk, ?_⟩
  have hmem : k ∈ R2.map Prod.fst := (lookupKey_isSome_iff k R2).1 (by simp [hlook])
  exact List.count_eq_one_of_mem ((keys_merged c documentation R R2 h2).2 hnodup) hmem

/-- C14. The template merge is additive: a key of the resource map that is not
the key `<name>Model` of a Model Definition of the collection keeps its value;
the key `<name>Model` of every definition of the collection is in the map
afterwards and holds a resource newly built from a definition of that name,
whatever the map held under that key before; and the keys of the map given stay,
in their order, before the keys that are added. -/
theorem mergeModels_additive (c : JVal → Option JVal) (documentation : JVal)
    (ms : List JVal) (R R1 : List (String × JVal))
    (hmodels : getProp documentation "models" = some (.arr ms)) (hname : NamesByModel c)
    (hrun : mergeModels c documentation R = some R1) :
    (∀ k, (∀ m ∈ ms, modelResourceKey m ≠ some k) → lookupKey k R1 = lookupKey k R) ∧
      (∀ m ∈ ms, ∃ k m1 res, modelResourceKey m = some k ∧ m1 ∈ ms ∧
        modelResourceKey m1 = some k ∧ c m1 = some res ∧ lookupKey k R1 = some res) ∧
      ∃ added, R1.map Prod.fst = R.map Prod.fst ++ added := by
  refine ⟨?_, fun m hm => merged_holds_built c documentation ms R R1 hmodels hname hrun m hm,
    (keys_merged c documentation R R1 hrun).1⟩
  intro k hno
  have hrun2 := hrun
  rw [mergeModels_arr c documentation ms R hmodels] at hrun2
  cases hb : mapCfModel c ms with
  | none => simp [hb] at hrun2
  | some built =>
    refine lookupKey_merged_of_not_mem c documentation ms built R R1 k hmodels hb hrun ?_
    intro b hbmem hkb
    obtain ⟨m, hm, hcm⟩ := mapCfModel_mem_built c ms built hb b hbmem
    exact hno m hm (by rw [← hname m b hcm]; exact hkb)

theorem append_Model_inj (s n : String) (h : s ++ "Model" = n ++ "Model") : s = n := by
  have hd := congrArg String.data h
  simp only [String.data_append] at hd
  exact String.ext (List.append_cancel_right hd)

/-- C19. Last write wins: when the model collection holds the Model Definition
`mlast` of name `n` and no definition after it has that name (whatever
definitions of that name come before it), then after the template merge the
resource map holds under the key `n` + `Model` the resource built from `mlast`,
and that key occurs exactly once among the keys of the map (the map given having
no key twice). -/
theorem mergeModels_last_wins (c : JVal → Option JVal) (documentation : JVal)
    (before after : List JVal) (mlast : JVal) (n : String) (R R1 : List (String × JVal))
    (hmodels : getProp documentation "models" = some (.arr (before ++ mlast :: after)))
    (hname : NamesByModel c) (hn : getProp mlast "name" = some (.str n))
    (hafter : ∀ m ∈ after, ∃ s, getProp m "name" = some (.str s) ∧ s ≠ n)
    (hnodup : (R.map Prod.fst).Nodup)
    (hrun : mergeModels c documentation R = some R1) :
    ∃ res, c mlast = some res ∧ lookupKey (n ++ "Model") R1 = some res ∧
      (R1.map Prod.fst).count (n ++ "Model") = 1 := by
  have hrun2 := hrun
  rw [mergeModels_arr c documentation _ R hmodels, mapCfModel_append] at hrun2
  cases hpre : mapCfModel c before with
  | none => simp [hpre] at hrun2
  | some bpre =>
    cases hrest : mapCfModel c (mlast :: after) with
    | none => simp [hpre, hrest] at hrun2
    | some brest =>
      rw [mapCfModel] at hrest
      cases hc : c mlast with
      | none => simp [hc] at hrest
      | some res =>
        simp only [hc] at hrest
        cases hpost : mapCfModel c after with
        | none => simp [hpost] at hrest
        | some bpost =>
          simp only [hpost, Option.some.injEq] at hrest
          subst hrest
          have hk : modelKey res = some (n ++ "Model") := by
            rw [hname mlast res hc]
            simp [modelResourceKey, hn, toStr]
          have hno : ∀ x ∈ bpost, modelKey x ≠ some (n ++ "Model") := by
            intro x hx hkx
            obtain ⟨m, hm, hcm⟩ := mapCfModel_mem_built c after bpost hpost x hx
            obtain ⟨s, hs, hsn⟩ := hafter m hm
            rw [hname m x hcm] at hkx
            simp only [modelResourceKey, hs, toStr, Option.some.injEq] at hkx
            exact hsn (append_Model_inj s n hkx)
          have hbuilt : mapCfModel c (before ++ mlast :: after) = some (bpre ++ res :: bpost) := by
            rw [mapCfModel_append, hpre, mapCfModel, hc, hpost]
            rfl
          have hlook := lookupKey_merged_last c documentation _ bpre bpost res R R1
            (n ++ "Model") hmodels hbuilt hrun hk hno
          refine ⟨res, rfl, hlook, ?_⟩
          have hmem : (n ++ "Model") ∈ R1.map Prod.fst :=
            (lookupKey_isSome_iff _ R1).1 (by simp [hlook])
          exact List.count_eq_one_of_mem ((keys_merged c documentation R R1 hrun).2 hnodup) hmem

/-! ## Instances: the template merge -/

theorem namesByModel_exampleCfModel (restApiId : JVal) :
    NamesByModel (exampleCfModel restApiId) := by
  intro model resource h
  unfold exampleCfModel at h
  cases hn : getProp model "name" with
  | none => simp [hn] at h
  | some name =>
    cases hc : getProp model "contentType" with
    | none => simp [hn, hc] at h
    | some contentType =>
      cases hs : getProp model "schema" with
      | none => simp [hn, hc, hs] at h
      | some schema =>
        simp only [hn, hc, hs, Option.some.injEq] at h
        subst h
        simp [modelKey, modelResourceKey, hn, getProp_obj, lookupKey]

theorem mergeModels_idempotent_witness :
    (mergeModels (exampleCfModel (restApiId .undef)) collidingDocumentation
          exampleResources).bind
        (mergeModels (exampleCfModel (restApiId .undef)) collidingDocumentation)
        = mergeModels (exampleCfModel (restApiId .undef)) collidingDocumentation
          exampleResources ∧
      ∀ R2, (mergeModels (exampleCfModel (restApiId .undef)) collidingDocumentation
            exampleResources).bind
          (mergeModels (exampleCfModel (restApiId .undef)) collidingDocumentation) = some R2 →
        ∀ m ∈ [modelDefinition "Widget" .undef widgetSchema,
            modelDefinition "getWidgetResponse" .undef (.obj [("type", .str "string")]),
            modelDefinition "getWidgetResponse" .undef (.obj [("type", .str "number")])],
          ∃ k, modelResourceKey m = some k ∧ (R2.map Prod.fst).count k = 1 :=
  mergeModels_idempotent _ collidingDocumentation _ exampleResources (by rfl)
    (namesByModel_exampleCfModel _) (by decide)

theorem mergeModels_additive_witness :
    (∀ k, (∀ m ∈ [modelDefinition "Widget" .undef widgetSchema,
            modelDefinition "getWidgetResponse" .undef (.obj [("type", .str "string")]),
            modelDefinition "getWidgetResponse" .undef (.obj [("type", .str "number")])],
          modelResourceKey m ≠ some k) →
        lookupKey k mergedResources = lookupKey k exampleResources) ∧
      (∀ m ∈ [modelDefinition "Widget" .undef widgetSchema,
            modelDefinition "getWidgetResponse" .undef (.obj [("type", .str "string")]),
            modelDefinition "getWidgetResponse" .undef (.obj [("type", .str "number")])],
          ∃ k m1 res, modelResourceKey m = some k ∧
            m1 ∈ [modelDefinition "Widget" .undef widgetSchema,
              modelDefinition "getWidgetResponse" .undef (.obj [("type", .str "string")]),
              modelDefinition "getWidgetResponse" .undef (.obj [("type", .str "number")])] ∧
            modelResourceKey m1 = some k ∧
            exampleCfModel (restApiId .undef) m1 = some res ∧
            lookupKey k mergedResources = some res) ∧
      ∃ added, mergedResources.map Prod.fst = exampleResources.map Prod.fst ++ added :=
  mergeModels_additive _ collidingDocumentation _ exampleResources mergedResources (by rfl)
    (namesByModel_exampleCfModel _) (by decide)

theorem mergeModels_last_wins_witness :
    ∃ res, exampleCfModel (restApiId .undef)
          (modelDefinition "getWidgetResponse" .undef (.obj [("type", .str "number")]))
        = some res ∧
      lookupKey ("getWidgetResponse" ++ "Model") mergedResources = some res ∧
      (mergedResources.map Prod.fst).count ("getWidgetResponse" ++ "Model") = 1 :=
  mergeModels_last_wins (exampleCfModel (restApiId .undef)) collidingDocumentation
    [modelDefinition "Widget" .undef widgetSchema,
      modelDefinition "getWidgetResponse" .undef (.obj [("type", .str "string")])]
    [] (modelDefinition "getWidgetResponse" .undef (.obj [("type", .str "number")]))
    "getWidgetResponse" exampleResources mergedResources (by rfl)
    (namesByModel_exampleCfModel _) (by rfl) (by simp) (by decide) (by decide)

/-! ## `checkCFTemplate` and `beforeDeploy` -/

/-- C16. When `checkCFTemplate` completes, the output map holds under
`AwsDocApiId` the entry of description `API ID` and value `v`, every other output
entry is as before, the keys of the output map given stay in their order, and the
resources were built by the resource builder applied to the same `v`, where `v`
is `provider.apiGateway.restApiId` when that value is truthy and the reference
to `ApiGatewayRestApi` when there is no truthy such value. -/
theorem checkCFTemplate_output (ops : TemplateOps) (apiGateway documentation : JVal)
    (functions : List FunctionDecl) (cfTemplate r : Template)
    (hrun : checkCFTemplate ops apiGateway documentation functions cfTemplate = some r) :
    lookupKey "AwsDocApiId" r.Outputs
        = some (.obj [("Description", .str "API ID"), ("Value", restApiId apiGateway)]) ∧
      (∀ k, k ≠ "AwsDocApiId" → lookupKey k r.Outputs = lookupKey k cfTemplate.Outputs) ∧
      (∃ added, r.Outputs.map Prod.fst = cfTemplate.Outputs.map Prod.fst ++ added) ∧
      (∃ resources, mergeModels (ops.createCfModel (restApiId apiGateway)) documentation
          cfTemplate.Resources = some resources ∧
        updateFunctions ops resources functions = some r.Resources) ∧
      (∀ configured, getProp apiGateway "restApiId" = some configured →
        configured.truthy = true → restApiId apiGateway = configured) ∧
      ((∀ configured, getProp apiGateway "restApiId" = some configured →
          configured.truthy = false) →
        restApiId apiGateway = .obj [("Ref", .str "ApiGatewayRestApi")]) := by
  unfold checkCFTemplate at hrun
  cases hm : mergeModels (ops.createCfModel (restApiId apiGateway)) documentation
      cfTemplate.Resources with
  | none => simp [hm] at hrun
  | some resources =>
    simp only [hm] at hrun
    cases hu : updateFunctions ops resources functions with
    | none => simp [hu] at hrun
    | some resources1 =>
      simp only [hu, Option.some.injEq] at hrun
      subst hrun
      refine ⟨by simp [lookupKey_setEntry], fun k hk => by simp [lookupKey_setEntry, hk], ?_,
        ⟨resources, rfl, hu⟩, ?_, ?_⟩
      · simp only [keys_setEntry]
        by_cases hin : "AwsDocApiId" ∈ cfTemplate.Outputs.map Prod.fst
        · exact ⟨[], by simp [hin]⟩
        · exact ⟨["AwsDocApiId"], by simp [hin]⟩
      · intro configured hc ht
        have hat : apiGateway.truthy = true :=
          truthy_of_getProp apiGateway configured "restApiId" (by decide) hc
            (by intro e; subst e; simp [truthy] at ht)
        simp [restApiId, hat, hc, ht]
      · intro hall
        unfold restApiId
        by_cases hat : apiGateway.truthy = true
        · simp only [hat, if_true]
          cases hc : getProp apiGateway "restApiId" with
          | none => rfl
          | some configured => simp [hall configured hc]
        · simp [hat]

theorem checkCFTemplate_output_witness :
    lookupKey "AwsDocApiId" (Template.mk mergedResources
          [("ServerlessDeploymentBucketName", .obj [("Ref", .str "ServerlessDeploymentBucket")]),
            ("AwsDocApiId", .obj [("Description", .str "API ID"),
              ("Value", .obj [("Ref", .str "ApiGatewayRestApi")])])]).Outputs
        = some (.obj [("Description", .str "API ID"), ("Value", restApiId .undef)]) ∧
      (∀ k, k ≠ "AwsDocApiId" → lookupKey k (Template.mk mergedResources
          [("ServerlessDeploymentBucketName", .obj [("Ref", .str "ServerlessDeploymentBucket")]),
            ("AwsDocApiId", .obj [("Description", .str "API ID"),
              ("Value", .obj [("Ref", .str "ApiGatewayRestApi")])])]).Outputs
        = lookupKey k exampleTemplate.Outputs) ∧
      (∃ added, (Template.mk mergedResources
          [("ServerlessDeploymentBucketName", .obj [("Ref", .str "ServerlessDeploymentBucket")]),
            ("AwsDocApiId", .obj [("Description", .str "API ID"),
              ("Value", .obj [("Ref", .str "ApiGatewayRestApi")])])]).Outputs.map Prod.fst
        = exampleTemplate.Outputs.map Prod.fst ++ added) ∧
      (∃ resources, mergeModels (exampleTemplateOps.createCfModel (restApiId .undef))
          collidingDocumentation exampleTemplate.Resources = some resources ∧
        updateFunctions exampleTemplateOps resources
            [⟨"getWidgets", some [⟨some ⟨"widgets", "get", none⟩⟩]⟩]
          = some (Template.mk mergedResources
          [("ServerlessDeploymentBucketName", .obj [("Ref", .str "ServerlessDeploymentBucket")]),
            ("AwsDocApiId", .obj [("Description", .str "API ID"),
              ("Value", .obj [("Ref", .str "ApiGatewayRestApi")])])]).Resources) ∧
      (∀ configured, getProp JVal.undef "restApiId" = some configured →
        configured.truthy = true → restApiId .undef = configured) ∧
      ((∀ configured, getProp JVal.undef "restApiId" = some configured →
          configured.truthy = false) →
        restApiId .undef = .obj [("Ref", .str "ApiGatewayRestApi")]) :=
  checkCFTemplate_output exampleTemplateOps .undef collidingDocumentation
    [⟨"getWidgets", some [⟨some ⟨"widgets", "get", none⟩⟩]⟩] exampleTemplate _ (by decide)

/-- C15. Component dialect, validation failure: the error is logged, the process
exits, and nothing else has changed: `service.custom` (with the specification
and the model collection in it), the declared functions with the
`documentation` of their events, and the resource and output maps of the
template are what they were before the hook ran. -/
theorem beforeDeploy_validation_failure (host : Host) (w : World)
    (documentation openapi api : JVal) (err : String) (hcustom : w.custom.truthy = true)
    (hdoc : getProp w.custom "documentation" = some documentation)
    (hdt : documentation.truthy = true)
    (hopenapi : getProp documentation "openapi" = some openapi)
    (hot : openapi.truthy = true) (hapi : getProp documentation "api" = some api)
    (hfail : host.validate api = .failure err) :
    beforeDeploy host w
      = .exited ⟨w.custom, w.functions, w.cfTemplate, w.logs ++ [logLine err]⟩ := by
  simp [beforeDeploy, hcustom, hdoc, hdt, hopenapi, hot, hapi, hfail]

theorem beforeDeploy_validation_failure_witness :
    beforeDeploy failingHost
        ⟨.obj [("documentation", .obj [("openapi", .bool true), ("api", widgetApi)])],
          [⟨"getWidgets", some [⟨some ⟨"widgets", "get", none⟩⟩]⟩], exampleTemplate, []⟩
      = .exited ⟨(World.mk
            (.obj [("documentation", .obj [("openapi", .bool true), ("api", widgetApi)])])
            [⟨"getWidgets", some [⟨some ⟨"widgets", "get", none⟩⟩]⟩] exampleTemplate []).custom,
          (World.mk
            (.obj [("documentation", .obj [("openapi", .bool true), ("api", widgetApi)])])
            [⟨"getWidgets", some [⟨some ⟨"widgets", "get", none⟩⟩]⟩] exampleTemplate
            []).functions,
          (World.mk
            (.obj [("documentation", .obj [("openapi", .bool true), ("api", widgetApi)])])
            [⟨"getWidgets", some [⟨some ⟨"widgets", "get", none⟩⟩]⟩] exampleTemplate
            []).cfTemplate,
          (World.mk
            (.obj [("documentation", .obj [("openapi", .bool true), ("api", widgetApi)])])
            [⟨"getWidgets", some [⟨some ⟨"widgets", "get", none⟩⟩]⟩] exampleTemplate []).logs
            ++ [logLine "Error: not a valid Openapi API definition"]⟩ :=
  beforeDeploy_validation_failure failingHost _ _ (.bool true) widgetApi _ (by decide) (by rfl)
    (by decide) (by rfl) (by decide) (by rfl) (by rfl)

/-- C12. With no custom variables, and with custom variables that hold no
`documentation` block, the callback of the hook returns at line 67 without
calling `done`: the run neither aborts nor signals completion.  With a
`documentation` block that is of neither dialect the hook does reach
`checkCFTemplate` and `done`. -/
theorem beforeDeploy_returns_without_done (host : Host) (functions : List FunctionDecl)
    (cfTemplate : Template) (logs : List String) :
    beforeDeploy host ⟨.undef, functions, cfTemplate, logs⟩
        = .pending ⟨.undef, functions, cfTemplate, logs⟩ ∧
      beforeDeploy host ⟨.obj [("stage", .str "dev")], functions, cfTemplate, logs⟩
        = .pending ⟨.obj [("stage", .str "dev")], functions, cfTemplate, logs⟩ ∧
      beforeDeploy exampleHost ⟨.obj [("documentation", collidingDocumentation)],
          [⟨"getWidgets", some [⟨some ⟨"widgets", "get", none⟩⟩]⟩], exampleTemplate, []⟩
        = .done ⟨.obj [("documentation", collidingDocumentation)],
          [⟨"getWidgets", some [⟨some ⟨"widgets", "get", none⟩⟩]⟩],
          ⟨mergedResources,
            [("ServerlessDeploymentBucketName",
                .obj [("Ref", .str "ServerlessDeploymentBucket")]),
              ("AwsDocApiId", .obj [("Description", .str "API ID"),
                ("Value", .obj [("Ref", .str "ApiGatewayRestApi")])])]⟩, []⟩ := by
  refine ⟨rfl, rfl, by decide⟩

/-- A legacy event whose path is there and whose method is not throws: the
method entry is read without a test. -/
theorem swaggerEvent_methodAbsent (ops : SwaggerOps) (st : SwaggerState) (h : HttpEvent)
    (habs : methodAbsent ("/" ++ h.path) h.method st.paths = true) :
    swaggerEvent ops st ⟨some h⟩ = none := by
  cases hp : st.paths <;> simp [hp, methodAbsent] at habs
  rename_i kvs
  cases hl : lookupKey ("/" ++ h.path) kvs with
  | none => simp [hl] at habs
  | some v =>
    cases v <;> simp [hl] at habs
    rename_i mkvs
    have h1 : getProp (.obj kvs) ("/" ++ h.path) = some (.obj mkvs) := by
      rw [getProp_obj, hl]; rfl
    have h2 : getProp (.obj mkvs) h.method = some .undef := by
      rw [getProp_obj, habs]; rfl
    have h3 : getProp JVal.undef "description" = none := rfl
    unfold swaggerEvent
    simp only [hp, h1]
    simp only [truthy, if_true, h2]
    simp only [swaggerMethod, h3]

/-- C11. Legacy dialect: for the configuration `legacyDocumentation`, whose path
`/widgets` has the method `get` only, a function with the event of path `widgets`
and method `post` followed by the event of method `get` makes the normalisation
throw, so that no event receives documentation and the hook ends without
reaching the template synthesis. -/
theorem normalizeSwagger_missing_method_throws :
    normalizeSwagger idleSwaggerOps legacyDocumentation
        [⟨"createWidget", some [⟨some ⟨"widgets", "post", none⟩⟩, ⟨some ⟨"widgets", "get", none⟩⟩]⟩]
      = none ∧
    beforeDeploy exampleHost ⟨.obj [("documentation", legacyDocumentation)],
        [⟨"createWidget", some [⟨some ⟨"widgets", "post", none⟩⟩, ⟨some ⟨"widgets", "get", none⟩⟩]⟩],
        exampleTemplate, []⟩
      = .threw := by
  decide

/-- C17. For the specification `noComponentsApi`, which declares no `components`
section, the normalisation throws at line 82 whatever validation returned and
whatever functions are declared; for `noSchemasApi`, whose `components` has no
`schemas`, the model collection is the empty list and the normalisation goes on. -/
theorem normalizeOpenAPI_no_components (parsedData : JVal) (functions : List FunctionDecl) :
    normalizeOpenAPI noComponentsApi parsedData functions = none ∧
      normalizeOpenAPI noSchemasApi noSchemasApi
          [⟨"getWidgets", some [⟨some ⟨"widgets", "get", none⟩⟩]⟩]
        = some ⟨noSchemasApi, noSchemasApi, [],
            [⟨"getWidgets", some [⟨some ⟨"widgets", "get",
              some (.obj [("requestHeaders", .arr []), ("pathParams", .arr []),
                ("queryParams", .arr []), ("requestModels", .obj []),
                ("description", .undef), ("summary", .undef),
                ("methodResponses", .arr [.obj [("statusCode", .str "200")]])])⟩⟩]⟩],
            []⟩ := by
  refine ⟨?_, by decide⟩
  unfold normalizeOpenAPI
  cases getProp parsedData "components" with
  | none => rfl
  | some components =>
    cases getProp parsedData "paths" with
    | none => rfl
    | some parsePath => rfl

/-- C20. For the specification `textPlainApi`, whose request body has `text/plain`
content only, and for `noBodySchemaApi`, whose `application/json` entry has no
schema, the normalizer calls the extractor all the same, the extractor throws,
and the hook ends without attaching any Documentation Record. -/
theorem normalizeOpenAPI_requestBody_throws (functionName : String) :
    normalizeOpenAPI textPlainApi textPlainApi
        [⟨functionName, some [⟨some ⟨"widgets", "post", none⟩⟩]⟩] = none ∧
      normalizeOpenAPI noBodySchemaApi noBodySchemaApi
        [⟨functionName, some [⟨some ⟨"widgets", "post", none⟩⟩]⟩] = none ∧
      beforeDeploy exampleHost
        ⟨.obj [("documentation", .obj [("openapi", .bool true), ("api", textPlainApi)])],
          [⟨functionName, some [⟨some ⟨"widgets", "post", none⟩⟩]⟩], exampleTemplate, []⟩
        = .threw := by
  refine ⟨by rfl, by rfl, by rfl⟩

/-! ## The component-dialect walk: the responses -/

theorem length_replaceIndex (l : String) (x : JVal) : ∀ (xs : List JVal) (i : Nat),
    (replaceIndex l x i xs).length = xs.length
  | [], _ => rfl
  | v :: rest, i => by
    by_cases h : toString i = l
    · simp [replaceIndex, h]
    · simp [replaceIndex, h, length_replaceIndex l x rest (i + 1)]

theorem lookupKey_replaceIndex (k l : String) (x : JVal) (hkl : k ≠ l) :
    ∀ (xs : List JVal) (i : Nat),
      lookupKey k (indexEntries i (replaceIndex l x i xs)) = lookupKey k (indexEntries i xs)
  | [], _ => rfl
  | v :: rest, i => by
    by_cases h : toString i = l
    · have hne : ¬ toString i = k := fun e => hkl (e.symm.trans h)
      simp [replaceIndex, h, indexEntries, lookupKey, hne]
      have hne2 : ¬ l = k := fun e => hkl e.symm
      simp [hne2]
    · simp [replaceIndex, h, indexEntries, lookupKey, lookupKey_replaceIndex k l x hkl rest (i + 1)]

/-- Putting a node back under one key leaves the other properties as they are. -/
theorem getProp_putBack_ne (v x : JVal) (k l : String) (hkl : k ≠ l) :
    getProp (putBack v l x) k = getProp v k := by
  cases v with
  | undef => rfl
  | null => rfl
  | bool b => rfl
  | num n => rfl
  | str s => rfl
  | arr xs =>
    simp only [putBack, getProp, ownEntries, length_replaceIndex,
      lookupKey_replaceIndex k l x hkl xs 0]
  | obj kvs =>
    simp only [putBack, getProp_obj, lookupKey_replaceEntry, hkl, if_false]

/-- The request body stage leaves the responses of the method as they are. -/
theorem openapiRequestBody_responses (fn : String) (method method1 : JVal)
    (doc doc1 : MethodDoc) (models models1 : List JVal)
    (h : openapiRequestBody fn method doc models = some (doc1, models1, method1)) :
    getProp method1 "responses" = getProp method "responses" := by
  unfold openapiRequestBody at h
  cases hb : getProp method "requestBody" with
  | none => simp [hb] at h
  | some requestBody =>
    simp only [hb] at h
    cases hc : getProp (if requestBody.truthy = true then requestBody else .obj []) "content" with
    | none => simp [hc] at h
    | some content =>
      simp only [hc] at h
      by_cases hct : content.truthy = true
      · simp only [hct, if_true] at h
        cases hm : getProp content "application/json" with
        | none => simp [hm] at h
        | some param =>
          simp only [hm, Option.map_eq_some', Prod.mk.injEq] at h
          obtain ⟨r, _, _, _, rfl⟩ := h
          simp only [setIn, hb]
          exact getProp_putBack_ne method _ "responses" "requestBody" (by decide)
      · simp [hct] at h
        obtain ⟨_, _, rfl⟩ := h
        rfl

/-- What the normalizer pushes for one declared response. -/
theorem openapiResponse_entry (fn : String) (models models1 : List JVal) (code : String)
    (response mr response1 : JVal)
    (h : openapiResponse fn models code response = some (mr, models1, response1)) :
    (declaresJsonSchema response = true →
        ∃ r, extractOpenAPIModel (jsonMedia response) (fn ++ "Response") models = some r ∧
          mr = .obj [("statusCode", .str code),
            ("responseModels", .obj [("application/json", r.ret)])]) ∧
      (declaresJsonSchema response = false → mr = .obj [("statusCode", .str code)]) := by
  unfold openapiResponse jsonContent at h
  unfold declaresJsonSchema jsonMedia
  cases hc : getProp response "content" with
  | none => simp [hc] at h
  | some content =>
    simp only [hc] at h ⊢
    by_cases hct : content.truthy = true
    · simp only [hct, if_true] at h
      cases hm : getProp content "application/json" with
      | none => simp [hm] at h
      | some media =>
        simp only [hm, Option.getD_some] at h ⊢
        by_cases hmt : media.truthy = true
        · simp only [hmt, if_true] at h
          cases hs : getProp media "schema" with
          | none => simp [hs] at h
          | some schema =>
            simp only [hs] at h ⊢
            by_cases hst : schema.truthy = true
            · simp only [hst, if_true, Option.map_eq_some', Prod.mk.injEq] at h
              obtain ⟨r, hr, rfl, _, _⟩ := h
              exact ⟨fun _ => ⟨r, hr, rfl⟩, fun hf => (by simp [hst] at hf)⟩
            · simp [hst] at h
              obtain ⟨rfl, _, _⟩ := h
              exact ⟨fun ht => absurd ht hst, fun _ => rfl⟩
        · simp only [hmt] at h
          have hno : (match getProp media "schema" with
              | none => false
              | some schema => schema.truthy) = false := by
            cases media <;> simp [truthy] at hmt <;>
              simp [getProp, ownEntries, lookupKey, truthy, hmt, indexEntries]
          simp [getProp_obj, lookupKey, truthy] at h
          obtain ⟨rfl, _, _⟩ := h
          exact ⟨fun ht => (by rw [hno] at ht; cases ht), fun _ => rfl⟩
    · simp only [hct] at h
      have hno : (match getProp ((getProp content "application/json").getD .undef) "schema" with
          | none => false
          | some schema => schema.truthy) = false := by
        cases content <;> simp [truthy] at hct <;>
          simp [getProp, ownEntries, lookupKey, truthy, hct, indexEntries]
      simp [getProp_obj, lookupKey, truthy] at h
      obtain ⟨rfl, _, _⟩ := h
      exact ⟨fun ht => (by rw [hno] at ht; cases ht), fun _ => rfl⟩

/-- The value the extractor returns does not depend on the collection. -/
theorem extractOpenAPIModel_ret (param : JVal) (name : String) (models : List JVal)
    (r : Extraction) (h : extractOpenAPIModel param name models = some r) (ms : List JVal) :
    ∃ r1, extractOpenAPIModel param name ms = some r1 ∧ r1.ret = r.ret := by
  unfold extractOpenAPIModel extractModelDefinition at h ⊢
  cases hs : getProp param "schema" with
  | none => simp [hs] at h
  | some schema =>
    simp only [hs] at h ⊢
    cases hr : getProp schema "$ref" with
    | none => simp [hr] at h
    | some ref =>
      simp only [hr] at h ⊢
      by_cases ht : ref.truthy = true
      · simp only [ht, if_true] at h ⊢
        cases he : execSchemaRef (toStr ref).data with
        | none =>
          simp only [he, Option.some.injEq] at h ⊢
          subst h
          exact ⟨_, rfl, rfl⟩
        | some m =>
          simp only [he, Option.some.injEq] at h ⊢
          subst h
          exact ⟨_, rfl, rfl⟩
      · simp only [ht] at h ⊢
        cases hd : getProp param "description" with
        | none => simp [hd] at h
        | some d =>
          simp [hd] at h ⊢
          subst h
          rfl

theorem openapiResponseList_entries (fn : String) : ∀ (entries : List (String × JVal))
    (models models1 : List JVal) (out : List JVal) (entries1 : List (String × JVal)),
    openapiResponseList fn models entries = some (out, models1, entries1) →
    List.Forall₂ (fun e mr =>
      (declaresJsonSchema e.2 = true →
        ∀ ms, ∃ r, extractOpenAPIModel (jsonMedia e.2) (fn ++ "Response") ms = some r ∧
          mr = .obj [("statusCode", .str e.1),
            ("responseModels", .obj [("application/json", r.ret)])]) ∧
      (declaresJsonSchema e.2 = false → mr = .obj [("statusCode", .str e.1)])) entries out
  | [], models, models1, out, entries1, h => by
    simp only [openapiResponseList, Option.some.injEq, Prod.mk.injEq] at h
    obtain ⟨rfl, _, _⟩ := h
    exact List.Forall₂.nil
  | (code, response) :: rest, models, models1, out, entries1, h => by
    rw [openapiResponseList] at h
    cases h1 : openapiResponse fn models code response with
    | none => simp [h1] at h
    | some r1 =>
      obtain ⟨mr, models2, response1⟩ := r1
      simp only [h1] at h
      cases h2 : openapiResponseList fn models2 rest with
      | none => simp [h2] at h
      | some r2 =>
        obtain ⟨os, models3, rest1⟩ := r2
        simp only [h2, Option.some.injEq, Prod.mk.injEq] at h
        obtain ⟨rfl, _, _⟩ := h
        obtain ⟨hyes, hno⟩ := openapiResponse_entry fn models models2 code response mr response1 h1
        refine List.Forall₂.cons ⟨?_, hno⟩
          (openapiResponseList_entries fn rest models2 models3 os rest1 h2)
        intro hd ms
        obtain ⟨r, hr, hmr⟩ := hyes hd
        obtain ⟨r1, hr1, hret⟩ := extractOpenAPIModel_ret _ _ models r hr ms
        exact ⟨r1, hr1, by rw [hret]; exact hmr⟩

theorem getProp_toJVal_methodResponses (doc : MethodDoc) (out : List JVal)
    (h : doc.methodResponses = some out) :
    getProp doc.toJVal "methodResponses" = some (.arr out) := by
  simp [MethodDoc.toJVal, getProp_obj, lookupKey, h]

/-- C18. Component dialect: when the method matched by an event of the function
`fn` declares the responses `entries`, normalising the event stores on it a
Documentation Record whose `methodResponses` has one entry per declared status
code, in order; the entry of a response that declares
`content['application/json'].schema` is the status code with `responseModels`
mapping `application/json` to what the Model Extractor returns for that content
and the candidate name `fn` + `Response`, and the entry of any other response is
the status code alone. -/
theorem openapiEvent_methodResponses (fn : String) (st st1 : NormState) (h : HttpEvent)
    (ev1 : Event) (path method : JVal) (entries : List (String × JVal))
    (hpath : getProp st.paths ("/" ++ h.path) = some path) (hpt : path.truthy = true)
    (hmethod : getProp path h.method = some method) (hmt : method.truthy = true)
    (hresp : getProp method "responses" = some (.obj entries))
    (hrun : openapiEvent fn st ⟨some h⟩ = some (st1, ev1)) :
    ∃ doc out, ev1 = ⟨some { h with documentation := some doc }⟩ ∧
      getProp doc "methodResponses" = some (.arr out) ∧
      List.Forall₂ (fun e mr =>
        (declaresJsonSchema e.2 = true →
          ∀ ms, ∃ r, extractOpenAPIModel (jsonMedia e.2) (fn ++ "Response") ms = some r ∧
            mr = .obj [("statusCode", .str e.1),
              ("responseModels", .obj [("application/json", r.ret)])]) ∧
        (declaresJsonSchema e.2 = false → mr = .obj [("statusCode", .str e.1)]))
        entries out := by
  simp only [openapiEvent, hpath, hpt, if_true, hmethod, hmt] at hrun
  unfold openapiMethod at hrun
  cases hd : getProp method "description" with
  | none => simp [hd] at hrun
  | some d =>
    cases hs : getProp method "summary" with
    | none => simp [hd, hs] at hrun
    | some s =>
      simp only [hd, hs] at hrun
      cases h1 : openapiParameters fn h method ⟨[], [], [], [], d, s, none⟩ st.models st.parsePath with
      | none => simp [h1] at hrun
      | some r1 =>
        obtain ⟨doc1, models1, parsePath1⟩ := r1
        simp only [h1] at hrun
        cases h2 : openapiRequestBody fn method doc1 models1 with
        | none => simp [h2] at hrun
        | some r2 =>
          obtain ⟨doc2, models2, method2⟩ := r2
          simp only [h2] at hrun
          cases h3 : openapiResponses fn method2 doc2 models2 with
          | none => simp [h3] at hrun
          | some r3 =>
            obtain ⟨doc3, models3, method3⟩ := r3
            simp only [h3, Option.some.injEq, Prod.mk.injEq] at hrun
            obtain ⟨_, rfl⟩ := hrun
            have hresp2 : getProp method2 "responses" = some (.obj entries) := by
              rw [openapiRequestBody_responses fn method method2 doc1 doc2 models1 models2 h2]
              exact hresp
            simp only [openapiResponses, hresp2, truthy, if_true, ownEntries, Option.map_eq_some',
              Prod.mk.injEq] at h3
            obtain ⟨r, hr, rfl, _, _⟩ := h3
            obtain ⟨out, m, e⟩ := r
            exact ⟨_, out, rfl, getProp_toJVal_methodResponses _ out rfl,
              openapiResponseList_entries fn entries models2 m out e hr⟩

theorem openapiEvent_methodResponses_witness :
    ∃ doc out,
      (⟨some ⟨"widgets", "get", some (.obj [("requestHeaders", .arr []), ("pathParams", .arr []),
          ("queryParams", .arr []), ("requestModels", .obj []),
          ("description", .undef), ("summary", .undef),
          ("methodResponses", .arr [.obj [("statusCode", .str "200"),
              ("responseModels", .obj [("application/json", .str "Widget")])],
            .obj [("statusCode", .str "404")]])])⟩⟩ : Event)
        = ⟨some { (⟨"widgets", "get", none⟩ : HttpEvent) with documentation := some doc }⟩ ∧
      getProp doc "methodResponses" = some (.arr out) ∧
      List.Forall₂ (fun e mr =>
        (declaresJsonSchema e.2 = true →
          ∀ ms, ∃ r, extractOpenAPIModel (jsonMedia e.2) ("getWidget" ++ "Response") ms
              = some r ∧
            mr = .obj [("statusCode", .str e.1),
              ("responseModels", .obj [("application/json", r.ret)])]) ∧
        (declaresJsonSchema e.2 = false → mr = .obj [("statusCode", .str e.1)]))
        [("200", .obj [("description", .str "ok"),
            ("content", .obj [("application/json", .obj [("schema",
              .obj [("$ref", .str "#/components/schemas/Widget")])])])]),
          ("404", .obj [("description", .str "not found")])] out :=
  openapiEvent_methodResponses "getWidget" ⟨twoResponsesPaths, twoResponsesPaths, [], []⟩
    ⟨twoResponsesPaths, twoResponsesPaths, [], []⟩ ⟨"widgets", "get", none⟩ _ _ _ _
    (by rfl) (by decide) (by rfl) (by decide) (by rfl) (by decide)

end AwsDoc
